import Mathlib

set_option maxHeartbeats 1000000

/-!
Shallow embedding of `src/heavy_light_decomposition.cc`.

The source is a C++ heavy-light decomposition over a sum segment tree.
Per-node `vector<int>` arrays are modelled as functions `Nat → Int` or
`Nat → Nat` (entries holding the sentinel `-1` keep type `Int`, counters and
indices that are always non-negative use `Nat`).  Node values and aggregates
use unbounded `Int`: signed `int` overflow is undefined behaviour in C++, so
the mathematical integers are the defined-behaviour model.

The C++ recursions (segment tree build/update/query, the two DFS passes and
the two chain-jump while loops) terminate only on valid inputs, so each is
embedded with an explicit fuel argument; the wrappers supply enough fuel for
every valid tree (recursion depth is bounded by the node count), and the
proofs show the fuel is never exhausted under the validity hypotheses.
-/

/-- Pointwise update of a function, modelling a single array store. -/
def fupd {α : Type} (f : Nat → α) (i : Nat) (x : α) : Nat → α :=
  fun m => if m = i then x else f m

@[simp] theorem fupd_same {α : Type} (f : Nat → α) (i : Nat) (x : α) :
    fupd f i x i = x := by
  simp [fupd]

theorem fupd_ne {α : Type} (f : Nat → α) (i m : Nat) (x : α) (h : m ≠ i) :
    fupd f i x m = f m := by
  simp [fupd, h]

/-! ### Segment tree (class SegmentTree) -/

/-- The segment tree object: member `n` (size) and member `tree`
(the backing array, `vector<int> tree` of size `4*n`, zero-initialised). -/
structure SegTree where
  n : Nat
  tree : Nat → Int

/-- `SegmentTree(int size)`: `n = size`, `tree.resize(4 * n, 0)`. -/
def SegTree.mkST (size : Nat) : SegTree :=
  ⟨size, fun _ => 0⟩

/-- `combine(a, b)`: sum combine. -/
def SegTree.combine (a b : Int) : Int := a + b

/-- Recursive `build(arr, node, start, end)`.  Fuel bounds the recursion
depth (the interval length shrinks at every call, so fuel `n` suffices for
the top-level interval `[0, n-1]`). -/
def SegTree.buildGo (arr : Nat → Int) : Nat → (Nat → Int) → Nat → Nat → Nat → (Nat → Int)
  | 0, t, _, _, _ => t
  | fuel+1, t, node, start, en =>
    if start = en then
      fupd t node (arr start)
    else
      let mid := (start + en) / 2
      let t1 := SegTree.buildGo arr fuel t (2*node+1) start mid
      let t2 := SegTree.buildGo arr fuel t1 (2*node+2) (mid+1) en
      fupd t2 node (SegTree.combine (t2 (2*node+1)) (t2 (2*node+2)))

/-- `build_from_mapped_values(values_at_pos)`: returns unchanged on an empty
input (a vector of length `n` is empty iff `n = 0`), otherwise builds from
`[0, n-1]`. -/
def SegTree.build_from_mapped_values (st : SegTree) (arr : Nat → Int) : SegTree :=
  if st.n = 0 then st
  else { st with tree := SegTree.buildGo arr st.n st.tree 0 0 (st.n - 1) }

/-- Recursive `update(node, start, end, idx, val)`. -/
def SegTree.updateGo : Nat → (Nat → Int) → Nat → Nat → Nat → Nat → Int → (Nat → Int)
  | 0, t, _, _, _, _, _ => t
  | fuel+1, t, node, start, en, idx, val =>
    if start = en then
      fupd t node val
    else
      let mid := (start + en) / 2
      let t1 :=
        if start ≤ idx ∧ idx ≤ mid then SegTree.updateGo fuel t (2*node+1) start mid idx val
        else SegTree.updateGo fuel t (2*node+2) (mid+1) en idx val
      fupd t1 node (SegTree.combine (t1 (2*node+1)) (t1 (2*node+2)))

/-- `update(index, value)`: recursive update from the root segment. -/
def SegTree.update (st : SegTree) (idx : Nat) (val : Int) : SegTree :=
  { st with tree := SegTree.updateGo st.n st.tree 0 0 (st.n - 1) idx val }

/-- Recursive `query(node, start, end, l, r)`. -/
def SegTree.queryGo : Nat → (Nat → Int) → Nat → Nat → Nat → Nat → Nat → Int
  | 0, _, _, _, _, _, _ => 0
  | fuel+1, t, node, start, en, l, r =>
    if r < start ∨ en < l then 0
    else if l ≤ start ∧ en ≤ r then t node
    else
      let mid := (start + en) / 2
      SegTree.combine (SegTree.queryGo fuel t (2*node+1) start mid l r)
        (SegTree.queryGo fuel t (2*node+2) (mid+1) en l r)

/-- `query(query_left, query_right)`: `if (query_left > query_right) return 0;`
then the recursive range query from the root segment. -/
def SegTree.query (st : SegTree) (l r : Nat) : Int :=
  if l > r then 0
  else SegTree.queryGo st.n st.tree 0 0 (st.n - 1) l r

/-! ### Heavy-light decomposition (class HLD) -/

/-- The HLD object: all data members of `class HLD`. -/
structure HLD where
  N : Nat
  adj : Nat → List Nat
  values : Nat → Int
  parent : Nat → Int
  depth : Nat → Nat
  subtree_size : Nat → Nat
  heavy_child : Nat → Int
  head : Nat → Nat
  pos : Nat → Nat
  cur_pos : Nat
  seg_tree : SegTree

/-- `HLD(int num_nodes, const vector<int>& node_initial_values)`:
the member-initialiser list of the constructor. -/
def HLD.mkHLD (num_nodes : Nat) (node_initial_values : Nat → Int) : HLD :=
  { N := num_nodes
    adj := fun _ => []
    values := node_initial_values
    parent := fun _ => -1
    depth := fun _ => 0
    subtree_size := fun _ => 1
    heavy_child := fun _ => -1
    head := fun _ => 0
    pos := fun _ => 0
    cur_pos := 0
    seg_tree := SegTree.mkST num_nodes }

/-- One `push_back`: `adj[u].push_back(v)`. -/
def pushAdj (adj : Nat → List Nat) (u v : Nat) : Nat → List Nat :=
  fun w => if w = u then adj u ++ [v] else adj w

/-- `add_edge(u, v)`: `adj[u].push_back(v); adj[v].push_back(u);`. -/
def HLD.add_edge (st : HLD) (u v : Nat) : HLD :=
  { st with adj := pushAdj (pushAdj st.adj u v) v u }

/-- The neighbour loop body of `dfs1_size_depth_parent`, recursing over the
captured list `adj[u]`; `rec` stands for the recursive call
`dfs1_size_depth_parent(v, u, d + 1)` and `maxc` for the local variable
`max_c_subtree_size`. -/
def dfs1Step (rec : HLD → Nat → HLD) (u : Nat) (p : Int) :
    List Nat → HLD → Nat → HLD
  | [], st, _ => st
  | v :: vs, st, maxc =>
    if (v : Int) = p then
      dfs1Step rec u p vs st maxc
    else
      let st1 := rec st v
      let st2 := { st1 with
        subtree_size := fupd st1.subtree_size u (st1.subtree_size u + st1.subtree_size v) }
      if st2.subtree_size v > maxc then
        dfs1Step rec u p vs { st2 with heavy_child := fupd st2.heavy_child u (v : Int) }
          (st2.subtree_size v)
      else
        dfs1Step rec u p vs st2 maxc

/-- `dfs1_size_depth_parent(u, p, d)`: sets `parent[u] = p`, `depth[u] = d`,
`subtree_size[u] = 1`, then iterates over `adj[u]`.  The recursion depth on a
valid tree is bounded by the tree height, so fuel `N` suffices. -/
def HLD.dfs1_size_depth_parent : Nat → HLD → Nat → Int → Nat → HLD
  | 0, st, _, _, _ => st
  | fuel+1, st, u, p, d =>
    let st0 := { st with
      parent := fupd st.parent u p
      depth := fupd st.depth u d
      subtree_size := fupd st.subtree_size u 1 }
    dfs1Step (fun s v => HLD.dfs1_size_depth_parent fuel s v (u : Int) (d + 1)) u p
      (st0.adj u) st0 0

/-- The light-child loop of `dfs2_hld`: for `v` in `adj[u]`, skip
`v == parent[u] || v == heavy_child[u]`, else `dfs2_hld(v, v)`
(`rec` stands for that recursive call). -/
def dfs2Step (rec : HLD → Nat → HLD) (u : Nat) : List Nat → HLD → HLD
  | [], st => st
  | v :: vs, st =>
    if (v : Int) = st.parent u ∨ (v : Int) = st.heavy_child u then
      dfs2Step rec u vs st
    else
      dfs2Step rec u vs (rec st v)

/-- `dfs2_hld(u, h)`: `head[u] = h; pos[u] = cur_pos++;`, recurse first into
the heavy child with the same head, then into the light children, each
starting its own chain. -/
def HLD.dfs2_hld : Nat → HLD → Nat → Nat → HLD
  | 0, st, _, _ => st
  | fuel+1, st, u, h =>
    let st1 := { st with
      head := fupd st.head u h
      pos := fupd st.pos u st.cur_pos
      cur_pos := st.cur_pos + 1 }
    let st2 :=
      if st1.heavy_child u ≠ -1 then
        HLD.dfs2_hld fuel st1 (st1.heavy_child u).toNat h
      else st1
    dfs2Step (fun s v => HLD.dfs2_hld fuel s v v) u (st2.adj u) st2

/-- The loop `for (i = 0; i < N; ++i) values_for_seg_tree[pos[i]] = values[i];`
building the position-indexed value vector (initially `vector<int>(N)`, i.e.
zero-filled). -/
def permVals (ps : Nat → Nat) (vals : Nat → Int) : Nat → (Nat → Int)
  | 0 => fun _ => 0
  | i+1 => fupd (permVals ps vals i) (ps i) (vals i)

/-- `build(root)`: the two DFS passes, then the segment tree build from the
position-permuted values. -/
def HLD.build (st : HLD) (root : Nat) : HLD :=
  let st1 := HLD.dfs1_size_depth_parent st.N st root (-1) 0
  let st2 := HLD.dfs2_hld st1.N st1 root root
  { st2 with seg_tree := st2.seg_tree.build_from_mapped_values (permVals st2.pos st2.values st2.N) }

/-- `update_node_value(u, new_value)`:
`values[u] = new_value; seg_tree.update(pos[u], new_value);`. -/
def HLD.update_node_value (st : HLD) (u : Nat) (new_value : Int) : HLD :=
  { st with
    values := fupd st.values u new_value
    seg_tree := st.seg_tree.update (st.pos u) new_value }

/-- The `while (head[u] != head[v])` loop of `query_path`, returning the loop
variables and the accumulated `result` at loop exit.  On a valid built tree
each iteration strictly decreases `depth[head[u]] + depth[head[v]]`, so fuel
`2 * N + 1` is never exhausted.  `parent[head[u]]` is a valid node index
whenever the loop body runs on a valid built tree, so its `Int.toNat` is
exact there. -/
def HLD.qpLoop : Nat → HLD → Nat → Nat → Int → Nat × Nat × Int
  | 0, _, u, v, res => (u, v, res)
  | fuel+1, st, u, v, res =>
    if st.head u = st.head v then (u, v, res)
    else
      let uv := if st.depth (st.head u) < st.depth (st.head v) then (v, u) else (u, v)
      let u := uv.1
      let v := uv.2
      let res := res + st.seg_tree.query (st.pos (st.head u)) (st.pos u)
      HLD.qpLoop fuel st (st.parent (st.head u)).toNat v res

/-- `query_path(u, v)`: the chain-jump loop, then the final same-chain range
query between the shallower and the deeper endpoint. -/
def HLD.query_path (st : HLD) (u v : Nat) : Int :=
  let uvr := HLD.qpLoop (2 * st.N + 1) st u v 0
  let u1 := uvr.1
  let v1 := uvr.2.1
  let res := uvr.2.2
  let uv := if st.depth u1 > st.depth v1 then (v1, u1) else (u1, v1)
  res + st.seg_tree.query (st.pos uv.1) (st.pos uv.2)

/-- The `while (head[u] != head[v])` loop of `get_lca`. -/
def HLD.lcaLoop : Nat → HLD → Nat → Nat → Nat × Nat
  | 0, _, u, v => (u, v)
  | fuel+1, st, u, v =>
    if st.head u = st.head v then (u, v)
    else
      let uv := if st.depth (st.head u) < st.depth (st.head v) then (v, u) else (u, v)
      let u := uv.1
      let v := uv.2
      HLD.lcaLoop fuel st (st.parent (st.head u)).toNat v

/-- `get_lca(u, v)`: the chain-jump loop, then
`return (depth[u] < depth[v]) ? u : v;`. -/
def HLD.get_lca (st : HLD) (u v : Nat) : Nat :=
  let uv := HLD.lcaLoop (2 * st.N + 1) st u v
  if st.depth uv.1 < st.depth uv.2 then uv.1 else uv.2

/-! ### Building an instance the way the tests do -/

/-- Fold of `add_edge` calls over an edge list. -/
def HLD.addEdges (st : HLD) : List (Nat × Nat) → HLD
  | [] => st
  | e :: es => HLD.addEdges (st.add_edge e.1 e.2) es

/-- Folding the `add_edge` adjacency writes over an edge list. -/
def buildAdjGo (a : Nat → List Nat) : List (Nat × Nat) → Nat → List Nat
  | [] => a
  | e :: es => buildAdjGo (pushAdj (pushAdj a e.1 e.2) e.2 e.1) es

/-- The adjacency structure produced by the `add_edge` calls alone. -/
def buildAdj (edges : List (Nat × Nat)) : Nat → List Nat :=
  buildAdjGo (fun _ => []) edges

/-- Constructor, `add_edge` calls, then `build(root)` — the lifecycle the
specification describes. -/
def builtOf (num_nodes : Nat) (vals : Nat → Int) (edges : List (Nat × Nat)) (root : Nat) : HLD :=
  (HLD.addEdges (HLD.mkHLD num_nodes vals) edges).build root

/-! ### Rooted trees

`TreeCert N root adj par dep` certifies that the adjacency structure `adj`
on nodes `0 .. N-1` is exactly the (undirected) edge set of the tree rooted
at `root` whose parent map is `par` (with `-1` at the root) and whose
depth map is `dep`.  This is the meaning of "the edges form a valid tree":
every node has a parent chain of strictly decreasing depth ending at the
root (so the graph is connected and acyclic), and the adjacency lists hold
precisely the parent and the children of each node, without duplicates. -/
def TreeCert (N root : Nat) (adj : Nat → List Nat) (par : Nat → Int) (dep : Nat → Nat) : Prop :=
  root < N ∧
  par root = -1 ∧
  dep root = 0 ∧
  (∀ u, u < N → u ≠ root → 0 ≤ par u ∧ (par u).toNat < N ∧ dep u = dep (par u).toNat + 1) ∧
  (∀ u, u < N → (adj u).Nodup) ∧
  (∀ u, u < N → ∀ v, v ∈ adj u → v < N) ∧
  (∀ u, u < N → ∀ v, v < N → (v ∈ adj u ↔ (par v = (u : Int) ∨ par u = (v : Int))))

instance treeCertDecidable (N root : Nat) (adj : Nat → List Nat) (par : Nat → Int)
    (dep : Nat → Nat) : Decidable (TreeCert N root adj par dep) := by
  unfold TreeCert
  infer_instance

/-- Bounded ancestor test: climb the parent chain from `u` for at most
`fuel` steps looking for `x`. -/
def ancAux (par : Nat → Int) : Nat → Nat → Nat → Bool
  | 0, x, u => x == u
  | fuel+1, x, u => x == u || (decide (0 ≤ par u) && ancAux par fuel x (par u).toNat)

/-- `x` is a weak ancestor of `u` (fuel `N` explores any parent chain of a
valid `N`-node tree in full). -/
def Anc (N : Nat) (par : Nat → Int) (x u : Nat) : Prop :=
  ancAux par N x u = true

/-- Iterated parent map. -/
def parIter (par : Nat → Int) : Nat → Nat → Nat
  | 0, u => u
  | k+1, u => parIter par k (par u).toNat

/-- `w` is the lowest common ancestor of `u` and `v`: a common ancestor of
maximal depth. -/
def IsLCA (N : Nat) (par : Nat → Int) (dep : Nat → Nat) (w u v : Nat) : Prop :=
  Anc N par w u ∧ Anc N par w v ∧
  ∀ x, x < N → Anc N par x u → Anc N par x v → dep x ≤ dep w

section TreeTheory

variable {N root : Nat} {adj : Nat → List Nat} {par : Nat → Int} {dep : Nat → Nat}

theorem tc_root_lt (h : TreeCert N root adj par dep) : root < N := h.1

theorem tc_par_root (h : TreeCert N root adj par dep) : par root = -1 := h.2.1

theorem tc_dep_root (h : TreeCert N root adj par dep) : dep root = 0 := h.2.2.1

theorem tc_par (h : TreeCert N root adj par dep) :
    ∀ u, u < N → u ≠ root → 0 ≤ par u ∧ (par u).toNat < N ∧ dep u = dep (par u).toNat + 1 :=
  h.2.2.2.1

theorem tc_nodup (h : TreeCert N root adj par dep) : ∀ u, u < N → (adj u).Nodup :=
  h.2.2.2.2.1

theorem tc_adj_lt (h : TreeCert N root adj par dep) : ∀ u, u < N → ∀ v, v ∈ adj u → v < N :=
  h.2.2.2.2.2.1

theorem tc_adj_iff (h : TreeCert N root adj par dep) :
    ∀ u, u < N → ∀ v, v < N → (v ∈ adj u ↔ (par v = (u : Int) ∨ par u = (v : Int))) :=
  h.2.2.2.2.2.2

theorem tc_dep_zero (h : TreeCert N root adj par dep) {u : Nat} (hu : u < N)
    (hd : dep u = 0) : u = root := by
  by_contra hne
  have := (tc_par h u hu hne).2.2
  omega

theorem ancAux_refl (par : Nat → Int) (fuel x : Nat) : ancAux par fuel x x = true := by
  cases fuel <;> simp [ancAux]

theorem ancAux_mono (par : Nat → Int) :
    ∀ fuel fuel' x u, fuel ≤ fuel' → ancAux par fuel x u = true → ancAux par fuel' x u = true := by
  intro fuel
  induction fuel with
  | zero =>
    intro fuel' x u _ hx
    simp [ancAux] at hx
    subst hx
    exact ancAux_refl par fuel' x
  | succ n ih =>
    intro fuel' x u hle hx
    match fuel', hle with
    | fuel'+1, hle =>
      simp only [ancAux, Bool.or_eq_true, Bool.and_eq_true, decide_eq_true_eq, beq_iff_eq] at hx ⊢
      rcases hx with hx | ⟨hp, hx⟩
      · exact Or.inl hx
      · exact Or.inr ⟨hp, ih fuel' x (par u).toNat (Nat.succ_le_succ_iff.mp hle) hx⟩

theorem ancAux_dest {par : Nat → Int} {fuel x u : Nat}
    (hx : ancAux par (fuel+1) x u = true) :
    x = u ∨ (0 ≤ par u ∧ ancAux par fuel x (par u).toNat = true) := by
  simpa only [ancAux, Bool.or_eq_true, Bool.and_eq_true, decide_eq_true_eq, beq_iff_eq] using hx

theorem ancAux_step {par : Nat → Int} {fuel x u : Nat} (hp : 0 ≤ par u)
    (hx : ancAux par fuel x (par u).toNat = true) : ancAux par (fuel+1) x u = true := by
  simp only [ancAux, Bool.or_eq_true, Bool.and_eq_true, decide_eq_true_eq, beq_iff_eq]
  exact Or.inr ⟨hp, hx⟩

theorem parIter_lt_dep (h : TreeCert N root adj par dep) :
    ∀ k u, u < N → k ≤ dep u → parIter par k u < N ∧ dep (parIter par k u) = dep u - k := by
  intro k
  induction k with
  | zero => intro u hu _; simpa [parIter] using hu
  | succ k ih =>
    intro u hu hk
    have hur : u ≠ root := by
      intro he; subst he; rw [tc_dep_root h] at hk; omega
    obtain ⟨hp0, hpl, hpd⟩ := tc_par h u hu hur
    have hk' : k ≤ dep (par u).toNat := by omega
    obtain ⟨h1, h2⟩ := ih (par u).toNat hpl hk'
    refine ⟨by simpa [parIter] using h1, ?_⟩
    show dep (parIter par k (par u).toNat) = dep u - (k+1)
    omega

theorem tc_dep_lt (h : TreeCert N root adj par dep) {u : Nat} (hu : u < N) : dep u < N := by
  have hinj : Set.InjOn (fun k => parIter par k u) ↑(Finset.range (dep u + 1)) := by
    intro a ha b hb hab
    simp only [Finset.coe_range, Set.mem_Iio] at ha hb
    have h1 := (parIter_lt_dep h a u hu (by omega)).2
    have h2 := (parIter_lt_dep h b u hu (by omega)).2
    simp only at hab
    rw [hab] at h1
    omega
  have hmaps : ∀ k ∈ Finset.range (dep u + 1), parIter par k u ∈ Finset.range N := by
    intro k hk
    simp only [Finset.mem_range] at hk ⊢
    exact (parIter_lt_dep h k u hu (by omega)).1
  have := Finset.card_le_card_of_injOn (fun k => parIter par k u) hmaps hinj
  simpa using this

theorem anc_fuel_short (h : TreeCert N root adj par dep) :
    ∀ {fuel u x : Nat}, u < N → ancAux par fuel x u = true →
      ancAux par (dep u + 1) x u = true := by
  intro fuel
  induction fuel with
  | zero =>
    intro u x _ hx
    simp [ancAux] at hx
    subst hx
    exact ancAux_refl par _ x
  | succ n ih =>
    intro u x hu hx
    rcases ancAux_dest hx with he | ⟨hp, hx'⟩
    · subst he; exact ancAux_refl par _ _
    · have hur : u ≠ root := by
        intro he; subst he; rw [tc_par_root h] at hp; omega
      obtain ⟨_, hpl, hpd⟩ := tc_par h u hu hur
      have hrec := ih hpl hx'
      rw [hpd]
      exact ancAux_step hp hrec

theorem anc_of_fuel (h : TreeCert N root adj par dep) {fuel x u : Nat} (hu : u < N)
    (hx : ancAux par fuel x u = true) : Anc N par x u := by
  have hshort := anc_fuel_short h hu hx
  have hdep : dep u < N := tc_dep_lt h hu
  exact ancAux_mono par _ _ _ _ (by omega) hshort

theorem anc_self (x : Nat) : Anc N par x x :=
  ancAux_refl par N x

theorem anc_dest (h : TreeCert N root adj par dep) {x u : Nat} (hu : u < N)
    (hx : Anc N par x u) :
    x = u ∨ (u ≠ root ∧ Anc N par x (par u).toNat) := by
  obtain ⟨m, hm⟩ : ∃ m, N = m + 1 := ⟨N - 1, by have := tc_root_lt h; omega⟩
  rw [Anc, hm] at hx
  rcases ancAux_dest hx with he | ⟨hp, hx'⟩
  · exact Or.inl he
  · have hur : u ≠ root := by
      intro he; subst he; rw [tc_par_root h] at hp; omega
    have hpl := (tc_par h u hu hur).2.1
    exact Or.inr ⟨hur, anc_of_fuel h hpl hx'⟩

theorem anc_intro_par (h : TreeCert N root adj par dep) {x u : Nat} (hu : u < N)
    (hur : u ≠ root) (hx : Anc N par x (par u).toNat) : Anc N par x u := by
  have hp := (tc_par h u hu hur).1
  exact anc_of_fuel h hu (ancAux_step hp hx)

theorem anc_par_self (h : TreeCert N root adj par dep) {u : Nat} (hu : u < N)
    (hur : u ≠ root) : Anc N par (par u).toNat u :=
  anc_intro_par h hu hur (anc_self _)

theorem anc_dep_le (h : TreeCert N root adj par dep) {x u : Nat} (hu : u < N)
    (hx : Anc N par x u) : dep x ≤ dep u := by
  suffices H : ∀ n u, u < N → dep u ≤ n → Anc N par x u → dep x ≤ dep u from
    H (dep u) u hu (le_refl _) hx
  intro n
  induction n with
  | zero =>
    intro u hu hd hx
    rcases anc_dest h hu hx with rfl | ⟨hur, _⟩
    · exact le_refl _
    · have := (tc_par h u hu hur).2.2; omega
  | succ n ih =>
    intro u hu hd hx
    rcases anc_dest h hu hx with rfl | ⟨hur, hx'⟩
    · exact le_refl _
    · obtain ⟨_, hpl, hpd⟩ := tc_par h u hu hur
      have := ih (par u).toNat hpl (by omega) hx'
      omega

theorem anc_lt (h : TreeCert N root adj par dep) {x u : Nat} (hu : u < N)
    (hx : Anc N par x u) : x < N := by
  suffices H : ∀ n u, u < N → dep u ≤ n → Anc N par x u → x < N from
    H (dep u) u hu (le_refl _) hx
  intro n
  induction n with
  | zero =>
    intro u hu hd hx
    rcases anc_dest h hu hx with rfl | ⟨hur, _⟩
    · exact hu
    · have := (tc_par h u hu hur).2.2; omega
  | succ n ih =>
    intro u hu hd hx
    rcases anc_dest h hu hx with rfl | ⟨hur, hx'⟩
    · exact hu
    · obtain ⟨_, hpl, hpd⟩ := tc_par h u hu hur
      exact ih (par u).toNat hpl (by omega) hx'

theorem anc_trans (h : TreeCert N root adj par dep) {x y z : Nat} (hz : z < N)
    (hxy : Anc N par x y) (hyz : Anc N par y z) : Anc N par x z := by
  suffices H : ∀ n z, z < N → dep z ≤ n → Anc N par y z → Anc N par x z from
    H (dep z) z hz (le_refl _) hyz
  intro n
  induction n with
  | zero =>
    intro z hz hd hyz
    rcases anc_dest h hz hyz with rfl | ⟨hzr, _⟩
    · exact hxy
    · have := (tc_par h z hz hzr).2.2; omega
  | succ n ih =>
    intro z hz hd hyz
    rcases anc_dest h hz hyz with rfl | ⟨hzr, hyz'⟩
    · exact hxy
    · obtain ⟨_, hpl, hpd⟩ := tc_par h z hz hzr
      exact anc_intro_par h hz hzr (ih (par z).toNat hpl (by omega) hyz')

theorem anc_eq_of_dep (h : TreeCert N root adj par dep) {x u : Nat} (hu : u < N)
    (hx : Anc N par x u) (hd : dep x = dep u) : x = u := by
  rcases anc_dest h hu hx with rfl | ⟨hur, hx'⟩
  · rfl
  · obtain ⟨_, hpl, hpd⟩ := tc_par h u hu hur
    have := anc_dep_le h hpl hx'
    omega

theorem anc_total (h : TreeCert N root adj par dep) {x y u : Nat} (hu : u < N)
    (hx : Anc N par x u) (hy : Anc N par y u) : Anc N par x y ∨ Anc N par y x := by
  suffices H : ∀ n u, u < N → dep u ≤ n → Anc N par x u → Anc N par y u →
      Anc N par x y ∨ Anc N par y x from H (dep u) u hu (le_refl _) hx hy
  intro n
  induction n with
  | zero =>
    intro u hu hd hx hy
    rcases anc_dest h hu hx with rfl | ⟨hur, _⟩
    · exact Or.inr hy
    · have := (tc_par h u hu hur).2.2; omega
  | succ n ih =>
    intro u hu hd hx hy
    rcases anc_dest h hu hx with rfl | ⟨hur, hx'⟩
    · exact Or.inr hy
    · rcases anc_dest h hu hy with rfl | ⟨_, hy'⟩
      · exact Or.inl hx
      · obtain ⟨_, hpl, hpd⟩ := tc_par h u hu hur
        exact ih (par u).toNat hpl (by omega) hx' hy'

theorem anc_root (h : TreeCert N root adj par dep) {u : Nat} (hu : u < N) :
    Anc N par root u := by
  suffices H : ∀ n u, u < N → dep u ≤ n → Anc N par root u from
    H (dep u) u hu (le_refl _)
  intro n
  induction n with
  | zero =>
    intro u hu hd
    have : u = root := tc_dep_zero h hu (by omega)
    subst this
    exact anc_self _
  | succ n ih =>
    intro u hu hd
    by_cases hur : u = root
    · subst hur; exact anc_self _
    · obtain ⟨_, hpl, hpd⟩ := tc_par h u hu hur
      exact anc_intro_par h hu hur (ih (par u).toNat hpl (by omega))

theorem anc_parIter (h : TreeCert N root adj par dep) :
    ∀ j u, u < N → j ≤ dep u → Anc N par (parIter par j u) u := by
  intro j
  induction j with
  | zero => intro u hu _; exact anc_self u
  | succ j ih =>
    intro u hu hj
    have hur : u ≠ root := by
      intro he; subst he; rw [tc_dep_root h] at hj; omega
    obtain ⟨_, hpl, hpd⟩ := tc_par h u hu hur
    have := ih (par u).toNat hpl (by omega)
    exact anc_intro_par h hu hur this

theorem anc_at_dep (h : TreeCert N root adj par dep) {u k : Nat} (hu : u < N)
    (hk : k ≤ dep u) : ∃ x, x < N ∧ Anc N par x u ∧ dep x = k := by
  refine ⟨parIter par (dep u - k) u, ?_, anc_parIter h _ u hu (by omega), ?_⟩
  · exact (parIter_lt_dep h (dep u - k) u hu (by omega)).1
  · have := (parIter_lt_dep h (dep u - k) u hu (by omega)).2
    omega

theorem anc_unique_at_dep (h : TreeCert N root adj par dep) {x y u : Nat} (hu : u < N)
    (hx : Anc N par x u) (hy : Anc N par y u) (hd : dep x = dep y) : x = y := by
  rcases anc_total h hu hx hy with hxy | hyx
  · exact anc_eq_of_dep h (anc_lt h hu hy) hxy hd
  · exact (anc_eq_of_dep h (anc_lt h hu hx) hyx hd.symm).symm

end TreeTheory

instance ancDecidable (N : Nat) (par : Nat → Int) (x u : Nat) : Decidable (Anc N par x u) :=
  inferInstanceAs (Decidable (ancAux par N x u = true))

instance isLCADecidable (N : Nat) (par : Nat → Int) (dep : Nat → Nat) (w u v : Nat) :
    Decidable (IsLCA N par dep w u v) := by
  unfold IsLCA
  infer_instance

/-! ### Children, subtrees and the heavy-child fold -/

/-- The children of `u` in adjacency-iteration order. -/
def childrenList (adj : Nat → List Nat) (par : Nat → Int) (u : Nat) : List Nat :=
  (adj u).filter (fun v => decide (par v = (u : Int)))

/-- The subtree of `u`: all nodes that `u` weakly dominates. -/
def subFinset (N : Nat) (par : Nat → Int) (u : Nat) : Finset Nat :=
  (Finset.range N).filter (fun y => Anc N par u y)

/-- Number of nodes in the subtree rooted at `u`. -/
def subSize (N : Nat) (par : Nat → Int) (u : Nat) : Nat :=
  (subFinset N par u).card

/-- The running-maximum fold of `dfs1_size_depth_parent`: starting from
current candidate `hc` and current maximum `maxc`, take each element whose
size strictly exceeds the running maximum. -/
def heavyGo (sz : Nat → Nat) : List Nat → Int → Nat → Int
  | [], hc, _ => hc
  | v :: vs, hc, maxc =>
    if sz v > maxc then heavyGo sz vs (v : Int) (sz v) else heavyGo sz vs hc maxc

/-- The heavy child `dfs1_size_depth_parent` computes for `u`. -/
def heavySpec (N : Nat) (adj : Nat → List Nat) (par : Nat → Int) (u : Nat) : Int :=
  heavyGo (subSize N par) (childrenList adj par u) (-1) 0

section TreeTheory2

variable {N root : Nat} {adj : Nat → List Nat} {par : Nat → Int} {dep : Nat → Nat}

theorem mem_childrenList (h : TreeCert N root adj par dep) {u v : Nat} (hu : u < N) :
    v ∈ childrenList adj par u ↔ v < N ∧ par v = (u : Int) := by
  simp only [childrenList, List.mem_filter, decide_eq_true_eq]
  constructor
  · rintro ⟨hv, hp⟩
    exact ⟨tc_adj_lt h u hu v hv, hp⟩
  · rintro ⟨hv, hp⟩
    exact ⟨(tc_adj_iff h u hu v hv).mpr (Or.inl hp), hp⟩

theorem child_facts (h : TreeCert N root adj par dep) {u v : Nat} (hu : u < N)
    (hv : v < N) (hp : par v = (u : Int)) :
    v ≠ root ∧ (par v).toNat = u ∧ dep v = dep u + 1 := by
  have hvr : v ≠ root := by
    intro he; subst he; rw [tc_par_root h] at hp; omega
  obtain ⟨_, _, hpd⟩ := tc_par h v hv hvr
  have ht : (par v).toNat = u := by rw [hp]; exact Int.toNat_natCast u
  refine ⟨hvr, ht, ?_⟩
  rw [hpd, ht]

theorem childrenList_nodup (h : TreeCert N root adj par dep) {u : Nat} (hu : u < N) :
    (childrenList adj par u).Nodup :=
  (tc_nodup h u hu).filter _

theorem skip_iff (h : TreeCert N root adj par dep) {u v : Nat} (hu : u < N)
    (hv : v ∈ adj u) : (v : Int) = par u ↔ ¬ par v = (u : Int) := by
  have hvN : v < N := tc_adj_lt h u hu v hv
  constructor
  · intro hvp hpc
    obtain ⟨hvr, hvt, hvd⟩ := child_facts h hu hvN hpc
    have hur : u ≠ root := by
      intro he; subst he; rw [tc_par_root h] at hvp; omega
    obtain ⟨_, _, hud⟩ := tc_par h u hu hur
    have hut : (par u).toNat = v := by rw [← hvp]; exact Int.toNat_natCast v
    rw [hut] at hud
    omega
  · intro hnp
    rcases (tc_adj_iff h u hu v hvN).mp hv with hc | hc
    · exact absurd hc hnp
    · rw [hc]

theorem mem_subFinset {u y : Nat} :
    y ∈ subFinset N par u ↔ y < N ∧ Anc N par u y := by
  simp [subFinset]

theorem anc_child_decomp (h : TreeCert N root adj par dep) {u y : Nat} (hu : u < N)
    (hy : y < N) (hanc : Anc N par u y) (hne : y ≠ u) :
    ∃ c, c < N ∧ par c = (u : Int) ∧ Anc N par c y := by
  suffices H : ∀ n y, y < N → dep y ≤ n → Anc N par u y → y ≠ u →
      ∃ c, c < N ∧ par c = (u : Int) ∧ Anc N par c y from
    H (dep y) y hy (le_refl _) hanc hne
  intro n
  induction n with
  | zero =>
    intro y hy hd hanc hne
    rcases anc_dest h hy hanc with he | ⟨hyr, _⟩
    · exact absurd he.symm hne
    · have := (tc_par h y hy hyr).2.2; omega
  | succ n ih =>
    intro y hy hd hanc hne
    rcases anc_dest h hy hanc with he | ⟨hyr, hanc'⟩
    · exact absurd he.symm hne
    · obtain ⟨hp0, hpl, hpd⟩ := tc_par h y hy hyr
      by_cases hc : (par y).toNat = u
      · refine ⟨y, hy, ?_, anc_self y⟩
        omega
      · obtain ⟨c, hcN, hcp, hcy⟩ := ih (par y).toNat hpl (by omega) hanc' hc
        exact ⟨c, hcN, hcp, anc_intro_par h hy hyr hcy⟩

theorem sub_disjoint (h : TreeCert N root adj par dep) {c c' : Nat} (hc : c < N)
    (hc' : c' < N) (hd : dep c = dep c') (hne : c ≠ c') {y : Nat}
    (h1 : y ∈ subFinset N par c) (h2 : y ∈ subFinset N par c') : False := by
  rw [mem_subFinset] at h1 h2
  exact hne (anc_unique_at_dep h h1.1 h1.2 h2.2 hd)

theorem subFinset_decomp (h : TreeCert N root adj par dep) {u : Nat} (hu : u < N) :
    subFinset N par u =
      insert u (((childrenList adj par u).toFinset).biUnion (subFinset N par)) := by
  ext y
  simp only [mem_subFinset, Finset.mem_insert, Finset.mem_biUnion, List.mem_toFinset]
  constructor
  · rintro ⟨hy, hanc⟩
    by_cases hne : y = u
    · exact Or.inl hne
    · obtain ⟨c, hcN, hcp, hcy⟩ := anc_child_decomp h hu hy hanc hne
      exact Or.inr ⟨c, (mem_childrenList h hu).mpr ⟨hcN, hcp⟩, hy, hcy⟩
  · rintro (rfl | ⟨c, hcmem, hcy⟩)
    · exact ⟨hu, anc_self y⟩
    · obtain ⟨hcN, hcp⟩ := (mem_childrenList h hu).mp hcmem
      have hcu : Anc N par u c := by
        obtain ⟨hcr, hct, _⟩ := child_facts h hu hcN hcp
        exact anc_intro_par h hcN hcr (by rw [hct]; exact anc_self u)
      exact ⟨hcy.1, anc_trans h hcy.1 hcu hcy.2⟩

theorem subSize_decomp (h : TreeCert N root adj par dep) {u : Nat} (hu : u < N) :
    subSize N par u =
      1 + ∑ c ∈ (childrenList adj par u).toFinset, subSize N par c := by
  have hdisj : ∀ c ∈ (childrenList adj par u).toFinset,
      ∀ c' ∈ (childrenList adj par u).toFinset, c ≠ c' →
        Disjoint (subFinset N par c) (subFinset N par c') := by
    intro c hcm c' hcm' hne
    rw [List.mem_toFinset, mem_childrenList h hu] at hcm hcm'
    have hd : dep c = dep c' := by
      rw [(child_facts h hu hcm.1 hcm.2).2.2, (child_facts h hu hcm'.1 hcm'.2).2.2]
    rw [Finset.disjoint_left]
    intro y hy hy'
    exact sub_disjoint h hcm.1 hcm'.1 hd hne hy hy'
  have hnm : u ∉ ((childrenList adj par u).toFinset).biUnion (subFinset N par) := by
    simp only [Finset.mem_biUnion, List.mem_toFinset, not_exists]
    intro c hcm
    obtain ⟨hcmem, hmem⟩ := hcm
    rw [mem_childrenList h hu] at hcmem
    rw [mem_subFinset] at hmem
    obtain ⟨_, hanc⟩ := hmem
    have hle := anc_dep_le h hu hanc
    have := (child_facts h hu hcmem.1 hcmem.2).2.2
    omega
  rw [subSize, subFinset_decomp h hu, Finset.card_insert_of_not_mem hnm,
    Finset.card_biUnion hdisj]
  simp only [subSize]
  omega

theorem subSize_pos (h : TreeCert N root adj par dep) {u : Nat} (hu : u < N) :
    1 ≤ subSize N par u := by
  have hm : u ∈ subFinset N par u := mem_subFinset.mpr ⟨hu, anc_self u⟩
  exact Finset.card_pos.mpr ⟨u, hm⟩

theorem heavyGo_spec (sz : Nat → Nat) :
    ∀ (l : List Nat) (hc : Int) (maxc : Nat),
      (heavyGo sz l hc maxc = hc ∧ ∀ v ∈ l, sz v ≤ maxc) ∨
      (∃ (l₁ : List Nat) (c : Nat) (l₂ : List Nat),
        l = l₁ ++ c :: l₂ ∧ heavyGo sz l hc maxc = (c : Int) ∧ maxc < sz c ∧
        (∀ v ∈ l₁, sz v < sz c) ∧ (∀ v ∈ l₂, sz v ≤ sz c)) := by
  intro l
  induction l with
  | nil => intro hc maxc; left; simp [heavyGo]
  | cons v vs ih =>
    intro hc maxc
    by_cases hgt : sz v > maxc
    · rcases ih (v : Int) (sz v) with ⟨heq, hall⟩ | ⟨l₁, c, l₂, hl, heq, hlt, h₁, h₂⟩
      · right
        refine ⟨[], v, vs, by simp, ?_, hgt, by simp, hall⟩
        simp [heavyGo, hgt, heq]
      · right
        refine ⟨v :: l₁, c, l₂, by simp [hl], ?_, by omega, ?_, h₂⟩
        · simp [heavyGo, hgt, heq]
        · intro x hx
          rcases List.mem_cons.mp hx with rfl | hx
          · omega
          · exact h₁ x hx
    · rcases ih hc maxc with ⟨heq, hall⟩ | ⟨l₁, c, l₂, hl, heq, hlt, h₁, h₂⟩
      · left
        refine ⟨by simp [heavyGo, hgt, heq], ?_⟩
        intro x hx
        rcases List.mem_cons.mp hx with rfl | hx
        · omega
        · exact hall x hx
      · right
        refine ⟨v :: l₁, c, l₂, by simp [hl], ?_, hlt, ?_, h₂⟩
        · simp [heavyGo, hgt, heq]
        · intro x hx
          rcases List.mem_cons.mp hx with rfl | hx
          · omega
          · exact h₁ x hx

theorem exists_isLCA (h : TreeCert N root adj par dep) {u v : Nat} (hu : u < N)
    (hv : v < N) : ∃ w, w < N ∧ IsLCA N par dep w u v := by
  have hne : ((Finset.range N).filter (fun x => Anc N par x u ∧ Anc N par x v)).Nonempty := by
    refine ⟨root, ?_⟩
    simp only [Finset.mem_filter, Finset.mem_range]
    exact ⟨tc_root_lt h, anc_root h hu, anc_root h hv⟩
  obtain ⟨w, hwS, hmax⟩ := Finset.exists_max_image _ dep hne
  simp only [Finset.mem_filter, Finset.mem_range] at hwS
  refine ⟨w, hwS.1, hwS.2.1, hwS.2.2, ?_⟩
  intro x hx hxu hxv
  exact hmax x (by simp only [Finset.mem_filter, Finset.mem_range]; exact ⟨hx, hxu, hxv⟩)

theorem isLCA_self_anc (h : TreeCert N root adj par dep) {u w : Nat} (hu : u < N)
    (hw : Anc N par w u) : IsLCA N par dep w u w := by
  have hwN : w < N := anc_lt h hu hw
  exact ⟨hw, anc_self w, fun x hx hxu hxw => anc_dep_le h hwN hxw⟩

theorem isLCA_unique (h : TreeCert N root adj par dep) {u v w w' : Nat} (hu : u < N)
    (h1 : IsLCA N par dep w u v) (h2 : IsLCA N par dep w' u v) : w = w' := by
  have hwN : w < N := anc_lt h hu h1.1
  have hw'N : w' < N := anc_lt h hu h2.1
  have hle := h1.2.2 w' hw'N h2.1 h2.2.1
  have hge := h2.2.2 w hwN h1.1 h1.2.1
  exact anc_unique_at_dep h hu h1.1 h2.1 (by omega)

end TreeTheory2

/-! ### Segment tree correctness -/

/-- `HeapAnc n m`: `m` lies in the subtree of `n` under the implicit
binary-heap indexing (children of `i` are `2*i+1` and `2*i+2`). -/
inductive HeapAnc : Nat → Nat → Prop where
  | refl (n : Nat) : HeapAnc n n
  | left {n m : Nat} : HeapAnc n m → HeapAnc n (2*m+1)
  | right {n m : Nat} : HeapAnc n m → HeapAnc n (2*m+2)

theorem heapAnc_le {n m : Nat} (h : HeapAnc n m) : n ≤ m := by
  induction h with
  | refl => exact le_refl _
  | left _ ih => omega
  | right _ ih => omega

theorem heapAnc_trans {a b m : Nat} (h1 : HeapAnc a b) (h2 : HeapAnc b m) : HeapAnc a m := by
  induction h2 with
  | refl => exact h1
  | left _ ih => exact HeapAnc.left ih
  | right _ ih => exact HeapAnc.right ih

theorem heapAnc_child_left (n : Nat) {m : Nat} (h : HeapAnc (2*n+1) m) : HeapAnc n m :=
  heapAnc_trans (HeapAnc.left (HeapAnc.refl n)) h

theorem heapAnc_child_right (n : Nat) {m : Nat} (h : HeapAnc (2*n+2) m) : HeapAnc n m :=
  heapAnc_trans (HeapAnc.right (HeapAnc.refl n)) h

theorem heapAnc_inv {n m : Nat} (h : HeapAnc n m) :
    m = n ∨ (1 ≤ m ∧ HeapAnc n ((m-1)/2)) := by
  cases h with
  | refl => exact Or.inl rfl
  | left h' =>
    rename_i m'
    right
    refine ⟨by omega, ?_⟩
    have : (2*m'+1-1)/2 = m' := by omega
    rw [this]
    exact h'
  | right h' =>
    rename_i m'
    right
    refine ⟨by omega, ?_⟩
    have : (2*m'+2-1)/2 = m' := by omega
    rw [this]
    exact h'

theorem heapAnc_sibling : ∀ m n : Nat, HeapAnc (2*n+1) m → HeapAnc (2*n+2) m → False := by
  suffices H : ∀ k m n, m ≤ k → HeapAnc (2*n+1) m → HeapAnc (2*n+2) m → False from
    fun m n h1 h2 => H m m n (le_refl _) h1 h2
  intro k
  induction k with
  | zero =>
    intro m n hm h1 _
    have := heapAnc_le h1
    omega
  | succ k ih =>
    intro m n hm h1 h2
    rcases heapAnc_inv h1 with he1 | ⟨hm1, h1'⟩
    · subst he1
      have := heapAnc_le h2
      omega
    · rcases heapAnc_inv h2 with he2 | ⟨hm2, h2'⟩
      · subst he2
        rcases heapAnc_inv h1 with he | ⟨_, h1''⟩
        · omega
        · have hr : (2*n+2-1)/2 = n := by omega
          rw [hr] at h1''
          have := heapAnc_le h1''
          omega
      · exact ih ((m-1)/2) n (by omega) h1' h2'

/-- The correctness invariant of the segment tree: at heap node `node`
covering the index segment `[start, en]`, the stored value is the sum of
`arr` over the segment, recursively at both children. -/
def GoodAt (t arr : Nat → Int) (node start en : Nat) : Prop :=
  t node = ∑ j ∈ Finset.Icc start en, arr j ∧
  (start < en →
    GoodAt t arr (2*node+1) start ((start+en)/2) ∧
    GoodAt t arr (2*node+2) ((start+en)/2+1) en)
termination_by en - start
decreasing_by
  · omega
  · omega

theorem goodAt_congr :
    ∀ k (t1 t2 arr : Nat → Int) (node start en : Nat), en - start ≤ k →
      (∀ m, HeapAnc node m → t1 m = t2 m) →
      GoodAt t1 arr node start en → GoodAt t2 arr node start en := by
  intro k
  induction k with
  | zero =>
    intro t1 t2 arr node start en hk hagree hg
    rw [GoodAt] at hg ⊢
    refine ⟨by rw [← hagree node (HeapAnc.refl node)]; exact hg.1, ?_⟩
    intro hlt
    omega
  | succ k ih =>
    intro t1 t2 arr node start en hk hagree hg
    rw [GoodAt] at hg ⊢
    refine ⟨by rw [← hagree node (HeapAnc.refl node)]; exact hg.1, ?_⟩
    intro hlt
    obtain ⟨hgl, hgr⟩ := hg.2 hlt
    constructor
    · exact ih t1 t2 arr (2*node+1) start ((start+en)/2) (by omega)
        (fun m hm => hagree m (heapAnc_child_left node hm)) hgl
    · exact ih t1 t2 arr (2*node+2) ((start+en)/2+1) en (by omega)
        (fun m hm => hagree m (heapAnc_child_right node hm)) hgr

theorem goodAt_arr_congr :
    ∀ k (t arr1 arr2 : Nat → Int) (node start en : Nat), en - start ≤ k →
      (∀ j, start ≤ j → j ≤ en → arr1 j = arr2 j) →
      GoodAt t arr1 node start en → GoodAt t arr2 node start en := by
  intro k
  induction k with
  | zero =>
    intro t arr1 arr2 node start en hk hagree hg
    rw [GoodAt] at hg ⊢
    refine ⟨?_, by intro hlt; omega⟩
    rw [hg.1]
    exact Finset.sum_congr rfl (fun j hj => by
      rw [Finset.mem_Icc] at hj
      exact hagree j hj.1 hj.2)
  | succ k ih =>
    intro t arr1 arr2 node start en hk hagree hg
    rw [GoodAt] at hg ⊢
    constructor
    · rw [hg.1]
      exact Finset.sum_congr rfl (fun j hj => by
        rw [Finset.mem_Icc] at hj
        exact hagree j hj.1 hj.2)
    · intro hlt
      obtain ⟨hgl, hgr⟩ := hg.2 hlt
      constructor
      · exact ih t arr1 arr2 (2*node+1) start ((start+en)/2) (by omega)
          (fun j h1 h2 => hagree j h1 (by omega)) hgl
      · exact ih t arr1 arr2 (2*node+2) ((start+en)/2+1) en (by omega)
          (fun j h1 h2 => hagree j (by omega) h2) hgr

theorem sum_Icc_consec (f : Nat → Int) {a b c : Nat} (h1 : a ≤ b + 1) (h2 : b ≤ c) :
    ((∑ j ∈ Finset.Icc a b, f j) + ∑ j ∈ Finset.Icc (b+1) c, f j) =
      ∑ j ∈ Finset.Icc a c, f j := by
  rw [← Nat.Ico_succ_right, ← Nat.Ico_succ_right, ← Nat.Ico_succ_right]
  exact Finset.sum_Ico_consecutive f h1 (by omega)

theorem buildGo_frame (arr : Nat → Int) :
    ∀ fuel (t : Nat → Int) node start en m, ¬ HeapAnc node m →
      SegTree.buildGo arr fuel t node start en m = t m := by
  intro fuel
  induction fuel with
  | zero => intro t node start en m _; rfl
  | succ fuel ih =>
    intro t node start en m hm
    have hne : m ≠ node := by
      intro hc; subst hc; exact hm (HeapAnc.refl m)
    by_cases he : start = en
    · simp only [SegTree.buildGo, if_pos he]
      exact fupd_ne t node m _ hne
    · simp only [SegTree.buildGo, if_neg he]
      rw [fupd_ne _ _ _ _ hne, ih, ih]
      · intro hcon; exact hm (heapAnc_child_left node hcon)
      · intro hcon; exact hm (heapAnc_child_right node hcon)

theorem updateGo_frame :
    ∀ fuel (t : Nat → Int) node start en idx val m, ¬ HeapAnc node m →
      SegTree.updateGo fuel t node start en idx val m = t m := by
  intro fuel
  induction fuel with
  | zero => intro t node start en idx val m _; rfl
  | succ fuel ih =>
    intro t node start en idx val m hm
    have hne : m ≠ node := by
      intro hc; subst hc; exact hm (HeapAnc.refl m)
    by_cases he : start = en
    · simp only [SegTree.updateGo, if_pos he]
      exact fupd_ne t node m _ hne
    · simp only [SegTree.updateGo, if_neg he]
      by_cases hc : start ≤ idx ∧ idx ≤ (start+en)/2
      · rw [if_pos hc, fupd_ne _ _ _ _ hne, ih]
        intro hcon; exact hm (heapAnc_child_left node hcon)
      · rw [if_neg hc, fupd_ne _ _ _ _ hne, ih]
        intro hcon; exact hm (heapAnc_child_right node hcon)

theorem goodAt_val {t arr : Nat → Int} {node start en : Nat}
    (h : GoodAt t arr node start en) : t node = ∑ j ∈ Finset.Icc start en, arr j := by
  rw [GoodAt] at h
  exact h.1

theorem goodAt_left {t arr : Nat → Int} {node start en : Nat}
    (h : GoodAt t arr node start en) (hlt : start < en) :
    GoodAt t arr (2*node+1) start ((start+en)/2) := by
  rw [GoodAt] at h
  exact (h.2 hlt).1

theorem goodAt_right {t arr : Nat → Int} {node start en : Nat}
    (h : GoodAt t arr node start en) (hlt : start < en) :
    GoodAt t arr (2*node+2) ((start+en)/2+1) en := by
  rw [GoodAt] at h
  exact (h.2 hlt).2

theorem goodAt_intro {t arr : Nat → Int} {node start en : Nat}
    (h1 : t node = ∑ j ∈ Finset.Icc start en, arr j)
    (h2 : start < en →
      GoodAt t arr (2*node+1) start ((start+en)/2) ∧
      GoodAt t arr (2*node+2) ((start+en)/2+1) en) :
    GoodAt t arr node start en := by
  rw [GoodAt]
  exact ⟨h1, h2⟩

theorem buildGo_good (arr : Nat → Int) :
    ∀ fuel (t : Nat → Int) node start en, start ≤ en → en - start < fuel →
      GoodAt (SegTree.buildGo arr fuel t node start en) arr node start en := by
  intro fuel
  induction fuel with
  | zero => intro t node start en _ h; omega
  | succ fuel ih =>
    intro t node start en hse hflt
    by_cases he : start = en
    · subst he
      simp only [SegTree.buildGo, if_pos rfl]
      exact goodAt_intro (by simp) (fun hlt => absurd hlt (lt_irrefl _))
    · simp only [SegTree.buildGo, if_neg he]
      have hlt : start < en := by omega
      have hmid1 : start ≤ (start+en)/2 := by omega
      have hmid2 : (start+en)/2 < en := by omega
      set t1 := SegTree.buildGo arr fuel t (2*node+1) start ((start+en)/2) with ht1
      set t2 := SegTree.buildGo arr fuel t1 (2*node+2) ((start+en)/2+1) en with ht2
      have hgl : GoodAt t1 arr (2*node+1) start ((start+en)/2) :=
        ih t (2*node+1) start ((start+en)/2) hmid1 (by omega)
      have hgr : GoodAt t2 arr (2*node+2) ((start+en)/2+1) en :=
        ih t1 (2*node+2) ((start+en)/2+1) en (by omega) (by omega)
      have hgl2 : GoodAt t2 arr (2*node+1) start ((start+en)/2) := by
        refine goodAt_congr ((start+en)/2 - start) t1 t2 arr _ _ _ (le_refl _) ?_ hgl
        intro m hm
        rw [ht2, buildGo_frame]
        intro hcon
        exact heapAnc_sibling m node hm hcon
      refine goodAt_intro ?_ ?_
      · rw [fupd_same, SegTree.combine, goodAt_val hgl2, goodAt_val hgr]
        exact sum_Icc_consec arr (by omega) (by omega)
      · intro _
        constructor
        · refine goodAt_congr ((start+en)/2 - start) t2 _ arr _ _ _ (le_refl _) ?_ hgl2
          intro m hm
          have h1 := heapAnc_le hm
          exact (fupd_ne t2 node m _ (by omega)).symm
        · refine goodAt_congr (en - ((start+en)/2+1)) t2 _ arr _ _ _ (le_refl _) ?_ hgr
          intro m hm
          have h1 := heapAnc_le hm
          exact (fupd_ne t2 node m _ (by omega)).symm


theorem updateGo_good (arr : Nat → Int) (val : Int) :
    ∀ fuel (t : Nat → Int) node start en idx, start ≤ en → en - start < fuel →
      start ≤ idx → idx ≤ en → GoodAt t arr node start en →
      GoodAt (SegTree.updateGo fuel t node start en idx val) (fupd arr idx val)
        node start en := by
  intro fuel
  induction fuel with
  | zero => intro t node start en idx _ h; omega
  | succ fuel ih =>
    intro t node start en idx hse hflt hi1 hi2 hg
    by_cases he : start = en
    · have hie : idx = start := by omega
      subst hie
      simp only [SegTree.updateGo, if_pos he]
      subst he
      refine goodAt_intro ?_ (fun hlt => absurd hlt (lt_irrefl _))
      simp [fupd]
    · simp only [SegTree.updateGo, if_neg he]
      have hlt : start < en := by omega
      have hmid1 : start ≤ (start+en)/2 := by omega
      have hmid2 : (start+en)/2 < en := by omega
      by_cases hc : start ≤ idx ∧ idx ≤ (start+en)/2
      · rw [if_pos hc]
        set t1 := SegTree.updateGo fuel t (2*node+1) start ((start+en)/2) idx val with ht1
        have hgl : GoodAt t1 (fupd arr idx val) (2*node+1) start ((start+en)/2) :=
          ih t (2*node+1) start ((start+en)/2) idx hmid1 (by omega) hi1 hc.2
            (goodAt_left hg hlt)
        have hgr : GoodAt t1 (fupd arr idx val) (2*node+2) ((start+en)/2+1) en := by
          have hstep1 : GoodAt t1 arr (2*node+2) ((start+en)/2+1) en := by
            refine goodAt_congr (en - ((start+en)/2+1)) t t1 arr _ _ _ (le_refl _) ?_
              (goodAt_right hg hlt)
            intro m hm
            rw [ht1, updateGo_frame]
            intro hcon
            exact heapAnc_sibling m node hcon hm
          refine goodAt_arr_congr (en - ((start+en)/2+1)) t1 arr _ _ _ _ (le_refl _) ?_ hstep1
          intro j hj1 _
          exact (fupd_ne arr idx j val (by omega)).symm
        refine goodAt_intro ?_ ?_
        · rw [fupd_same, SegTree.combine, goodAt_val hgl, goodAt_val hgr]
          exact sum_Icc_consec _ (by omega) (by omega)
        · intro _
          constructor
          · refine goodAt_congr ((start+en)/2 - start) t1 _ _ _ _ _ (le_refl _) ?_ hgl
            intro m hm
            have h1 := heapAnc_le hm
            exact (fupd_ne t1 node m _ (by omega)).symm
          · refine goodAt_congr (en - ((start+en)/2+1)) t1 _ _ _ _ _ (le_refl _) ?_ hgr
            intro m hm
            have h1 := heapAnc_le hm
            exact (fupd_ne t1 node m _ (by omega)).symm
      · rw [if_neg hc]
        have hi3 : (start+en)/2 < idx := by omega
        set t1 := SegTree.updateGo fuel t (2*node+2) ((start+en)/2+1) en idx val with ht1
        have hgr : GoodAt t1 (fupd arr idx val) (2*node+2) ((start+en)/2+1) en :=
          ih t (2*node+2) ((start+en)/2+1) en idx (by omega) (by omega) (by omega) hi2
            (goodAt_right hg hlt)
        have hgl : GoodAt t1 (fupd arr idx val) (2*node+1) start ((start+en)/2) := by
          have hstep1 : GoodAt t1 arr (2*node+1) start ((start+en)/2) := by
            refine goodAt_congr ((start+en)/2 - start) t t1 arr _ _ _ (le_refl _) ?_
              (goodAt_left hg hlt)
            intro m hm
            rw [ht1, updateGo_frame]
            intro hcon
            exact heapAnc_sibling m node hm hcon
          refine goodAt_arr_congr ((start+en)/2 - start) t1 arr _ _ _ _ (le_refl _) ?_ hstep1
          intro j _ hj2
          exact (fupd_ne arr idx j val (by omega)).symm
        refine goodAt_intro ?_ ?_
        · rw [fupd_same, SegTree.combine, goodAt_val hgl, goodAt_val hgr]
          exact sum_Icc_consec _ (by omega) (by omega)
        · intro _
          constructor
          · refine goodAt_congr ((start+en)/2 - start) t1 _ _ _ _ _ (le_refl _) ?_ hgl
            intro m hm
            have h1 := heapAnc_le hm
            exact (fupd_ne t1 node m _ (by omega)).symm
          · refine goodAt_congr (en - ((start+en)/2+1)) t1 _ _ _ _ _ (le_refl _) ?_ hgr
            intro m hm
            have h1 := heapAnc_le hm
            exact (fupd_ne t1 node m _ (by omega)).symm

theorem queryGo_correct (arr : Nat → Int) :
    ∀ fuel (t : Nat → Int) node start en l r, GoodAt t arr node start en →
      start ≤ en → en - start < fuel → l ≤ r →
      SegTree.queryGo fuel t node start en l r =
        ∑ j ∈ Finset.Icc (max l start) (min r en), arr j := by
  intro fuel
  induction fuel with
  | zero => intro t node start en l r _ _ h; omega
  | succ fuel ih =>
    intro t node start en l r hg hse hflt hlr
    by_cases h1 : r < start ∨ en < l
    · simp only [SegTree.queryGo, if_pos h1]
      rw [Finset.Icc_eq_empty (by omega), Finset.sum_empty]
    · by_cases h2 : l ≤ start ∧ en ≤ r
      · simp only [SegTree.queryGo, if_neg h1, if_pos h2]
        rw [goodAt_val hg, Nat.max_eq_right h2.1, Nat.min_eq_right h2.2]
      · simp only [SegTree.queryGo, if_neg h1, if_neg h2]
        have hlt : start < en := by omega
        have hmid1 : start ≤ (start+en)/2 := by omega
        have hmid2 : (start+en)/2 < en := by omega
        have e1 := ih t (2*node+1) start ((start+en)/2) l r (goodAt_left hg hlt)
          hmid1 (by omega) hlr
        have e2 := ih t (2*node+2) ((start+en)/2+1) en l r (goodAt_right hg hlt)
          (by omega) (by omega) hlr
        rw [e1, e2, SegTree.combine]
        by_cases hA : min r en ≤ (start+en)/2
        · rw [Finset.Icc_eq_empty (show ¬ max l ((start+en)/2+1) ≤ min r en by omega),
            Finset.sum_empty, add_zero,
            show min r ((start+en)/2) = min r en by omega]
        · by_cases hB : max l start ≤ (start+en)/2
          · have hminr : min r ((start+en)/2) = (start+en)/2 := by omega
            have hmaxl : max l ((start+en)/2+1) = (start+en)/2+1 := by omega
            rw [hminr, hmaxl]
            exact sum_Icc_consec arr
              (show max l start ≤ (start+en)/2 + 1 by omega)
              (show (start+en)/2 ≤ min r en by omega)
          · rw [Finset.Icc_eq_empty (show ¬ max l start ≤ min r ((start+en)/2) by omega),
              Finset.sum_empty, zero_add,
              show max l ((start+en)/2+1) = max l start by omega]

/-! ### Segment tree wrappers -/

theorem segQuery_empty (st : SegTree) {l r : Nat} (h : l > r) : SegTree.query st l r = 0 := by
  simp [SegTree.query, h]

theorem segQuery_correct {st : SegTree} {arr : Nat → Int} (hn : 1 ≤ st.n)
    (hg : GoodAt st.tree arr 0 0 (st.n - 1)) {l r : Nat} (hlr : l ≤ r)
    (hr : r ≤ st.n - 1) :
    SegTree.query st l r = ∑ j ∈ Finset.Icc l r, arr j := by
  rw [SegTree.query, if_neg (by omega)]
  rw [queryGo_correct arr st.n st.tree 0 0 (st.n - 1) l r hg (by omega) (by omega) hlr]
  rw [Nat.max_eq_left (Nat.zero_le l), Nat.min_eq_left hr]

theorem segBuild_good (st : SegTree) (arr : Nat → Int) (hn : 1 ≤ st.n) :
    (st.build_from_mapped_values arr).n = st.n ∧
      GoodAt (st.build_from_mapped_values arr).tree arr 0 0 (st.n - 1) := by
  rw [SegTree.build_from_mapped_values, if_neg (by omega)]
  exact ⟨rfl, buildGo_good arr st.n st.tree 0 0 (st.n - 1) (by omega) (by omega)⟩

theorem segUpdate_good {st : SegTree} {arr : Nat → Int} (hn : 1 ≤ st.n)
    (hg : GoodAt st.tree arr 0 0 (st.n - 1)) {idx : Nat} (hidx : idx ≤ st.n - 1)
    (val : Int) :
    (st.update idx val).n = st.n ∧
      GoodAt (st.update idx val).tree (fupd arr idx val) 0 0 (st.n - 1) := by
  rw [SegTree.update]
  exact ⟨rfl, updateGo_good arr val st.n st.tree 0 0 (st.n - 1) idx (by omega) (by omega)
    (by omega) hidx hg⟩

/-! ### DFS pass 1 verification -/

/-- Fields `dfs1_size_depth_parent` does not touch. -/
def Same1 (s t : HLD) : Prop :=
  s.N = t.N ∧ s.adj = t.adj ∧ s.values = t.values ∧ s.head = t.head ∧
  s.pos = t.pos ∧ s.cur_pos = t.cur_pos ∧ s.seg_tree = t.seg_tree

/-- The four per-node arrays written by `dfs1_size_depth_parent` coincide
between two states at node `x`. -/
def Eq4 (s t : HLD) (x : Nat) : Prop :=
  s.parent x = t.parent x ∧ s.depth x = t.depth x ∧
  s.subtree_size x = t.subtree_size x ∧ s.heavy_child x = t.heavy_child x

/-- Pass-1 postcondition at a single node. -/
def Done1 (N : Nat) (adj : Nat → List Nat) (par : Nat → Int) (dep : Nat → Nat)
    (st : HLD) (x : Nat) : Prop :=
  st.parent x = par x ∧ st.depth x = dep x ∧
  st.subtree_size x = subSize N par x ∧ st.heavy_child x = heavySpec N adj par x

/-- The children found in a neighbour list. -/
def kidsOf (par : Nat → Int) (u : Nat) (l : List Nat) : List Nat :=
  l.filter (fun v => decide (par v = (u : Int)))

/-- Full pass-1 postcondition of a call on subtree `u`. -/
def Dfs1Post (N : Nat) (adj : Nat → List Nat) (par : Nat → Int) (dep : Nat → Nat)
    (u : Nat) (st st' : HLD) : Prop :=
  Same1 st' st ∧
  (∀ x, ¬ (x < N ∧ Anc N par u x) → Eq4 st' st x) ∧
  (∀ x, x < N → Anc N par u x → Done1 N adj par dep st' x)

theorem same1_trans {a b c : HLD} (h1 : Same1 a b) (h2 : Same1 b c) : Same1 a c := by
  obtain ⟨e1, e2, e3, e4, e5, e6, e7⟩ := h1
  obtain ⟨f1, f2, f3, f4, f5, f6, f7⟩ := h2
  exact ⟨e1.trans f1, e2.trans f2, e3.trans f3, e4.trans f4, e5.trans f5,
    e6.trans f6, e7.trans f7⟩

theorem eq4_trans {a b c : HLD} {x : Nat} (h1 : Eq4 a b x) (h2 : Eq4 b c x) : Eq4 a c x := by
  obtain ⟨e1, e2, e3, e4⟩ := h1
  obtain ⟨f1, f2, f3, f4⟩ := h2
  exact ⟨e1.trans f1, e2.trans f2, e3.trans f3, e4.trans f4⟩

/-- Postcondition of the pass-1 neighbour fold, relative to the entry state
`stc` and the running maximum `maxc`. -/
def Dfs1StepPost (N : Nat) (adj : Nat → List Nat) (par : Nat → Int) (dep : Nat → Nat)
    (u : Nat) (l : List Nat) (maxc : Nat) (stc st' : HLD) : Prop :=
  Same1 st' stc ∧
  (∀ x, x ≠ u → ¬ (x < N ∧ ∃ v ∈ l, par v = (u : Int) ∧ Anc N par v x) → Eq4 st' stc x) ∧
  st'.parent u = stc.parent u ∧
  st'.depth u = stc.depth u ∧
  st'.subtree_size u = stc.subtree_size u + ((kidsOf par u l).map (subSize N par)).sum ∧
  st'.heavy_child u = heavyGo (subSize N par) (kidsOf par u l) (stc.heavy_child u) maxc ∧
  (∀ x, x < N → (∃ v ∈ l, par v = (u : Int) ∧ Anc N par v x) →
    Done1 N adj par dep st' x)

theorem done1_of_eq4 {N : Nat} {adj : Nat → List Nat} {par : Nat → Int} {dep : Nat → Nat}
    {s t : HLD} {x : Nat} (he : Eq4 s t x) (hd : Done1 N adj par dep t x) :
    Done1 N adj par dep s x :=
  ⟨he.1.trans hd.1, he.2.1.trans hd.2.1, he.2.2.1.trans hd.2.2.1, he.2.2.2.trans hd.2.2.2⟩

theorem kids_cons_child {par : Nat → Int} {u v : Nat} (vs : List Nat)
    (hc : par v = (u : Int)) : kidsOf par u (v :: vs) = v :: kidsOf par u vs := by
  simp [kidsOf, List.filter_cons, hc]

theorem kids_cons_nonchild {par : Nat → Int} {u v : Nat} (vs : List Nat)
    (hc : ¬ par v = (u : Int)) : kidsOf par u (v :: vs) = kidsOf par u vs := by
  simp [kidsOf, List.filter_cons, hc]

section Dfs1Proof

variable {N root : Nat} {adj : Nat → List Nat} {par : Nat → Int} {dep : Nat → Nat}

theorem dfs1Step_spec (h : TreeCert N root adj par dep) {u : Nat} (hu : u < N)
    (rec : HLD → Nat → HLD) :
    ∀ (l : List Nat) (stc : HLD) (maxc : Nat),
      l.Nodup → (∀ v ∈ l, v ∈ adj u) → stc.adj = adj →
      (∀ (s : HLD) v, v ∈ l → par v = (u : Int) → s.adj = adj →
        (∀ x, x < N → Anc N par v x → s.heavy_child x = -1) →
        Dfs1Post N adj par dep v s (rec s v)) →
      (∀ v ∈ l, par v = (u : Int) → ∀ x, x < N → Anc N par v x →
        stc.heavy_child x = -1) →
      Dfs1StepPost N adj par dep u l maxc stc (dfs1Step rec u (par u) l stc maxc) := by
  intro l
  induction l with
  | nil =>
    intro stc maxc _ _ _ _ _
    refine ⟨⟨rfl, rfl, rfl, rfl, rfl, rfl, rfl⟩, ?_, rfl, rfl, by simp [kidsOf, dfs1Step],
      by simp [kidsOf, dfs1Step, heavyGo], ?_⟩
    · intro x _ _
      exact ⟨rfl, rfl, rfl, rfl⟩
    · intro x _ hx
      simp at hx
  | cons v vs ih =>
    intro stc maxc hnd hmem hadj hrec hpend
    have hvadj : v ∈ adj u := hmem v (List.mem_cons_self v vs)
    have hvN : v < N := tc_adj_lt h u hu v hvadj
    by_cases hskip : (v : Int) = par u
    · have hnotchild : ¬ par v = (u : Int) := (skip_iff h hu hvadj).mp hskip
      have hred : dfs1Step rec u (par u) (v :: vs) stc maxc =
          dfs1Step rec u (par u) vs stc maxc := by
        simp only [dfs1Step, if_pos hskip]
      rw [hred]
      obtain ⟨hs1, hfr, hp, hd, hss, hhc, hdone⟩ :=
        ih stc maxc hnd.of_cons (fun w hw => hmem w (List.mem_cons_of_mem v hw)) hadj
          (fun s w hw => hrec s w (List.mem_cons_of_mem v hw))
          (fun w hw => hpend w (List.mem_cons_of_mem v hw))
      refine ⟨hs1, ?_, hp, hd, ?_, ?_, ?_⟩
      · intro x hxu hnx
        refine hfr x hxu ?_
        rintro ⟨hxN, w, hw, hwc, hwa⟩
        exact hnx ⟨hxN, w, List.mem_cons_of_mem v hw, hwc, hwa⟩
      · rw [kids_cons_nonchild vs hnotchild]
        exact hss
      · rw [kids_cons_nonchild vs hnotchild]
        exact hhc
      · intro x hxN hex
        obtain ⟨w, hw, hwc, hwa⟩ := hex
        rcases List.mem_cons.mp hw with rfl | hw'
        · exact absurd hwc hnotchild
        · exact hdone x hxN ⟨w, hw', hwc, hwa⟩
    · have hchild : par v = (u : Int) := by
        by_contra hc
        exact hskip ((skip_iff h hu hvadj).mpr hc)
      obtain ⟨hvr, hvt, hvd⟩ := child_facts h hu hvN hchild
      have hvu : v ≠ u := by
        intro he; subst he; omega
      have hvnotin : v ∉ vs := (List.nodup_cons.mp hnd).1
      obtain ⟨hs1, hfr1, hdone1⟩ := hrec stc v (List.mem_cons_self v vs) hchild hadj
        (fun x hx hax => hpend v (List.mem_cons_self v vs) hchild x hx hax)
      have hAncvu : ¬ Anc N par v u := by
        intro hanc
        have := anc_dep_le h hu hanc
        omega
      have hq_u : Eq4 (rec stc v) stc u := hfr1 u (fun hc => hAncvu hc.2)
      have hdv : Done1 N adj par dep (rec stc v) v := hdone1 v hvN (anc_self v)
      -- the subtree of a child never contains `u`, and subtrees of distinct
      -- children are disjoint
      have hsubne : ∀ w x, w < N → par w = (u : Int) → x < N → Anc N par w x → x ≠ u := by
        intro w x hwN hwc hxN hwa he
        subst he
        have h1 := anc_dep_le h hxN hwa
        have := (child_facts h hu hwN hwc).2.2
        omega
      have hsubdisj : ∀ w x, w < N → par w = (u : Int) → w ≠ v → x < N →
          Anc N par w x → Anc N par v x → False := by
        intro w x hwN hwc hwv hxN hwa hva
        have hdw := (child_facts h hu hwN hwc).2.2
        exact sub_disjoint h hwN hvN (by omega) hwv
          (mem_subFinset.mpr ⟨hxN, hwa⟩) (mem_subFinset.mpr ⟨hxN, hva⟩)
      -- reduce the program one step
      simp only [dfs1Step, if_neg hskip]
      have hssv : (rec stc v).subtree_size v = subSize N par v := hdv.2.2.1
      have hcond : fupd (rec stc v).subtree_size u
          ((rec stc v).subtree_size u + (rec stc v).subtree_size v) v = subSize N par v := by
        rw [fupd_ne _ _ _ _ hvu, hssv]
      rw [hcond]
      by_cases hgt : subSize N par v > maxc
      · rw [if_pos hgt]
        set st1 := rec stc v with hst1
        set st2 : HLD := { st1 with
          subtree_size := fupd st1.subtree_size u (st1.subtree_size u + st1.subtree_size v) }
          with hst2
        set st3 : HLD := { st2 with heavy_child := fupd st2.heavy_child u (v : Int) }
          with hst3
        have hadj3 : st3.adj = adj := by
          rw [hst3, hst2]
          exact hs1.2.1.trans hadj
        have hpend3 : ∀ w ∈ vs, par w = (u : Int) → ∀ x, x < N → Anc N par w x →
            st3.heavy_child x = -1 := by
          intro w hw hwc x hxN hwa
          have hwN : w < N := tc_adj_lt h u hu w (hmem w (List.mem_cons_of_mem v hw))
          have hxu : x ≠ u := hsubne w x hwN hwc hxN hwa
          have hnv : ¬ Anc N par v x := by
            intro hva
            exact hsubdisj w x hwN hwc (fun he => hvnotin (he ▸ hw)) hxN hwa hva
          have he1 : st3.heavy_child x = st1.heavy_child x := by
            rw [hst3]
            exact fupd_ne _ _ _ _ hxu
          rw [he1, (hfr1 x (fun hc => hnv hc.2)).2.2.2]
          exact hpend w (List.mem_cons_of_mem v hw) hwc x hxN hwa
        obtain ⟨hs2, hfr2, hp2, hd2, hss2, hhc2, hdone2⟩ :=
          ih st3 (subSize N par v) hnd.of_cons
            (fun w hw => hmem w (List.mem_cons_of_mem v hw)) hadj3
            (fun s w hw => hrec s w (List.mem_cons_of_mem v hw)) hpend3
        have hs31 : Same1 st3 st1 := by
          rw [hst3, hst2]
          exact ⟨rfl, rfl, rfl, rfl, rfl, rfl, rfl⟩
        have heq4_31 : ∀ x, x ≠ u → Eq4 st3 st1 x := by
          intro x hxu
          rw [hst3, hst2]
          exact ⟨rfl, rfl, fupd_ne _ _ _ _ hxu, fupd_ne _ _ _ _ hxu⟩
        refine ⟨same1_trans hs2 (same1_trans hs31 hs1), ?_, ?_, ?_, ?_, ?_, ?_⟩
        · -- frame
          intro x hxu hnx
          have hnxv : ¬ (x < N ∧ Anc N par v x) := by
            rintro ⟨hxN, hva⟩
            exact hnx ⟨hxN, v, List.mem_cons_self v vs, hchild, hva⟩
          have hnxvs : ¬ (x < N ∧ ∃ w ∈ vs, par w = (u : Int) ∧ Anc N par w x) := by
            rintro ⟨hxN, w, hw, hwc, hwa⟩
            exact hnx ⟨hxN, w, List.mem_cons_of_mem v hw, hwc, hwa⟩
          exact eq4_trans (hfr2 x hxu hnxvs)
            (eq4_trans (heq4_31 x hxu) (hfr1 x hnxv))
        · -- parent at u
          rw [hp2, hst3, hst2]
          exact hq_u.1
        · -- depth at u
          rw [hd2, hst3, hst2]
          exact hq_u.2.1
        · -- subtree_size at u
          rw [hss2, kids_cons_child vs hchild]
          have h3u : st3.subtree_size u = stc.subtree_size u + subSize N par v := by
            rw [hst3, hst2]
            show fupd st1.subtree_size u (st1.subtree_size u + st1.subtree_size v) u =
              stc.subtree_size u + subSize N par v
            rw [fupd_same, hq_u.2.2.1, hssv]
          rw [h3u]
          simp [Nat.add_assoc]
        · -- heavy_child at u
          rw [hhc2, kids_cons_child vs hchild]
          have h3u : st3.heavy_child u = (v : Int) := by
            rw [hst3]
            exact fupd_same _ _ _
          rw [h3u]
          show heavyGo (subSize N par) (kidsOf par u vs) (v : Int) (subSize N par v) =
            heavyGo (subSize N par) (v :: kidsOf par u vs) (stc.heavy_child u) maxc
          rw [heavyGo]
          rw [if_pos hgt]
        · -- done set
          intro x hxN hex
          obtain ⟨w, hw, hwc, hwa⟩ := hex
          rcases List.mem_cons.mp hw with rfl | hw'
          · -- x lies in the subtree of v
            have hxu : x ≠ u := hsubne w x hvN hwc hxN hwa
            have hnxvs : ¬ (x < N ∧ ∃ w' ∈ vs, par w' = (u : Int) ∧ Anc N par w' x) := by
              rintro ⟨_, w', hw', hwc', hwa'⟩
              have hw'N : w' < N := tc_adj_lt h u hu w' (hmem w' (List.mem_cons_of_mem w hw'))
              exact hsubdisj w' x hw'N hwc' (fun he => hvnotin (he ▸ hw')) hxN hwa' hwa
            exact done1_of_eq4 (eq4_trans (hfr2 x hxu hnxvs) (heq4_31 x hxu))
              (hdone1 x hxN hwa)
          · exact hdone2 x hxN ⟨w, hw', hwc, hwa⟩
      · rw [if_neg hgt]
        set st1 := rec stc v with hst1
        set st2 : HLD := { st1 with
          subtree_size := fupd st1.subtree_size u (st1.subtree_size u + st1.subtree_size v) }
          with hst2
        have hadj2 : st2.adj = adj := by
          rw [hst2]
          exact hs1.2.1.trans hadj
        have hpend2 : ∀ w ∈ vs, par w = (u : Int) → ∀ x, x < N → Anc N par w x →
            st2.heavy_child x = -1 := by
          intro w hw hwc x hxN hwa
          have hwN : w < N := tc_adj_lt h u hu w (hmem w (List.mem_cons_of_mem v hw))
          have hnv : ¬ Anc N par v x := by
            intro hva
            exact hsubdisj w x hwN hwc (fun he => hvnotin (he ▸ hw)) hxN hwa hva
          have he1 : st2.heavy_child x = st1.heavy_child x := by
            rw [hst2]
          rw [he1, (hfr1 x (fun hc => hnv hc.2)).2.2.2]
          exact hpend w (List.mem_cons_of_mem v hw) hwc x hxN hwa
        obtain ⟨hs2, hfr2, hp2, hd2, hss2, hhc2, hdone2⟩ :=
          ih st2 maxc hnd.of_cons
            (fun w hw => hmem w (List.mem_cons_of_mem v hw)) hadj2
            (fun s w hw => hrec s w (List.mem_cons_of_mem v hw)) hpend2
        have hs21 : Same1 st2 st1 := by
          rw [hst2]
          exact ⟨rfl, rfl, rfl, rfl, rfl, rfl, rfl⟩
        have heq4_21 : ∀ x, x ≠ u → Eq4 st2 st1 x := by
          intro x hxu
          rw [hst2]
          exact ⟨rfl, rfl, fupd_ne _ _ _ _ hxu, rfl⟩
        refine ⟨same1_trans hs2 (same1_trans hs21 hs1), ?_, ?_, ?_, ?_, ?_, ?_⟩
        · intro x hxu hnx
          have hnxv : ¬ (x < N ∧ Anc N par v x) := by
            rintro ⟨hxN, hva⟩
            exact hnx ⟨hxN, v, List.mem_cons_self v vs, hchild, hva⟩
          have hnxvs : ¬ (x < N ∧ ∃ w ∈ vs, par w = (u : Int) ∧ Anc N par w x) := by
            rintro ⟨hxN, w, hw, hwc, hwa⟩
            exact hnx ⟨hxN, w, List.mem_cons_of_mem v hw, hwc, hwa⟩
          exact eq4_trans (hfr2 x hxu hnxvs)
            (eq4_trans (heq4_21 x hxu) (hfr1 x hnxv))
        · rw [hp2, hst2]
          exact hq_u.1
        · rw [hd2, hst2]
          exact hq_u.2.1
        · rw [hss2, kids_cons_child vs hchild]
          have h2u : st2.subtree_size u = stc.subtree_size u + subSize N par v := by
            rw [hst2]
            show fupd st1.subtree_size u (st1.subtree_size u + st1.subtree_size v) u =
              stc.subtree_size u + subSize N par v
            rw [fupd_same, hq_u.2.2.1, hssv]
          rw [h2u]
          simp [Nat.add_assoc]
        · rw [hhc2, kids_cons_child vs hchild]
          have h2u : st2.heavy_child u = stc.heavy_child u := by
            rw [hst2]
            exact hq_u.2.2.2
          rw [h2u]
          show heavyGo (subSize N par) (kidsOf par u vs) (stc.heavy_child u) maxc =
            heavyGo (subSize N par) (v :: kidsOf par u vs) (stc.heavy_child u) maxc
          rw [heavyGo]
          rw [if_neg hgt]
        · intro x hxN hex
          obtain ⟨w, hw, hwc, hwa⟩ := hex
          rcases List.mem_cons.mp hw with rfl | hw'
          · have hxu : x ≠ u := hsubne w x hvN hwc hxN hwa
            have hnxvs : ¬ (x < N ∧ ∃ w' ∈ vs, par w' = (u : Int) ∧ Anc N par w' x) := by
              rintro ⟨_, w', hw', hwc', hwa'⟩
              have hw'N : w' < N := tc_adj_lt h u hu w' (hmem w' (List.mem_cons_of_mem w hw'))
              exact hsubdisj w' x hw'N hwc' (fun he => hvnotin (he ▸ hw')) hxN hwa' hwa
            exact done1_of_eq4 (eq4_trans (hfr2 x hxu hnxvs) (heq4_21 x hxu))
              (hdone1 x hxN hwa)
          · exact hdone2 x hxN ⟨w, hw', hwc, hwa⟩

end Dfs1Proof

section Dfs1Main

variable {N root : Nat} {adj : Nat → List Nat} {par : Nat → Int} {dep : Nat → Nat}

theorem anc_of_child (h : TreeCert N root adj par dep) {u v : Nat} (hu : u < N)
    (hv : v < N) (hc : par v = (u : Int)) : Anc N par u v := by
  obtain ⟨hvr, hvt, _⟩ := child_facts h hu hv hc
  exact anc_intro_par h hv hvr (by rw [hvt]; exact anc_self u)

theorem dfs1_spec (h : TreeCert N root adj par dep) :
    ∀ fuel u (st : HLD), u < N → N ≤ fuel + dep u → st.adj = adj →
      (∀ x, x < N → Anc N par u x → st.heavy_child x = -1) →
      Dfs1Post N adj par dep u st
        (HLD.dfs1_size_depth_parent fuel st u (par u) (dep u)) := by
  intro fuel
  induction fuel with
  | zero =>
    intro u st hu hfuel _ _
    have := tc_dep_lt h hu
    omega
  | succ fuel ih =>
    intro u st hu hfuel hadj hpend
    simp only [HLD.dfs1_size_depth_parent]
    set st0 : HLD := { st with
      parent := fupd st.parent u (par u)
      depth := fupd st.depth u (dep u)
      subtree_size := fupd st.subtree_size u 1 } with hst0
    have hadj0 : st0.adj = adj := hadj
    have hadju : st0.adj u = adj u := by rw [hadj0]
    rw [hadju]
    have hrec : ∀ (s : HLD) v, v ∈ adj u → par v = (u : Int) → s.adj = adj →
        (∀ x, x < N → Anc N par v x → s.heavy_child x = -1) →
        Dfs1Post N adj par dep v s
          (HLD.dfs1_size_depth_parent fuel s v (u : Int) (dep u + 1)) := by
      intro s v hvadj hvc hsadj hspend
      have hvN : v < N := tc_adj_lt h u hu v hvadj
      obtain ⟨hvr, hvt, hvd⟩ := child_facts h hu hvN hvc
      have h1 : (u : Int) = par v := hvc.symm
      have h2 : dep u + 1 = dep v := hvd.symm
      rw [h1, h2]
      exact ih v s hvN (by omega) hsadj hspend
    have hpend0 : ∀ v ∈ adj u, par v = (u : Int) → ∀ x, x < N → Anc N par v x →
        st0.heavy_child x = -1 := by
      intro v hvadj hvc x hxN hax
      have hvN : v < N := tc_adj_lt h u hu v hvadj
      have : Anc N par u x :=
        anc_trans h hxN (anc_of_child h hu hvN hvc) hax
      exact hpend x hxN this
    obtain ⟨hs1, hfr, hp, hd, hss, hhc, hdone⟩ :=
      dfs1Step_spec h hu _ (adj u) st0 0 (tc_nodup h u hu) (fun v hv => hv) hadj0
        hrec hpend0
    have hs0 : Same1 st0 st := ⟨rfl, rfl, rfl, rfl, rfl, rfl, rfl⟩
    have heq40 : ∀ x, x ≠ u → Eq4 st0 st x := by
      intro x hxu
      exact ⟨fupd_ne _ _ _ _ hxu, fupd_ne _ _ _ _ hxu, fupd_ne _ _ _ _ hxu, rfl⟩
    refine ⟨same1_trans hs1 hs0, ?_, ?_⟩
    · -- frame
      intro x hnx
      have hxu : x ≠ u := by
        intro he
        apply hnx
        subst he
        exact ⟨hu, anc_self x⟩
      have hnex : ¬ (x < N ∧ ∃ v ∈ adj u, par v = (u : Int) ∧ Anc N par v x) := by
        rintro ⟨hxN, v, hvadj, hvc, hva⟩
        have hvN : v < N := tc_adj_lt h u hu v hvadj
        exact hnx ⟨hxN, anc_trans h hxN (anc_of_child h hu hvN hvc) hva⟩
      exact eq4_trans (hfr x hxu hnex) (heq40 x hxu)
    · -- postcondition on the subtree
      intro x hxN hax
      by_cases hxu : x = u
      · subst hxu
        refine ⟨?_, ?_, ?_, ?_⟩
        · rw [hp]
          show fupd st.parent x (par x) x = par x
          exact fupd_same _ _ _
        · rw [hd]
          show fupd st.depth x (dep x) x = dep x
          exact fupd_same _ _ _
        · rw [hss]
          show fupd st.subtree_size x 1 x + ((kidsOf par x (adj x)).map (subSize N par)).sum =
            subSize N par x
          rw [fupd_same, subSize_decomp h hxN]
          have hk : kidsOf par x (adj x) = childrenList adj par x := rfl
          rw [hk, ← List.sum_toFinset (subSize N par) (childrenList_nodup h hxN)]
        · rw [hhc]
          show heavyGo (subSize N par) (kidsOf par x (adj x)) (st0.heavy_child x) 0 =
            heavySpec N adj par x
          have hhc0 : st0.heavy_child x = -1 := hpend x hxN (anc_self x)
          rw [hhc0]
          rfl
      · obtain ⟨c, hcN, hcp, hca⟩ := anc_child_decomp h hu hxN hax hxu
        have hcadj : c ∈ adj u := (tc_adj_iff h u hu c hcN).mpr (Or.inl hcp)
        exact hdone x hxN ⟨c, hcadj, hcp, hca⟩

end Dfs1Main

/-! ### DFS pass 2 verification -/

/-- Fields `dfs2_hld` does not touch. -/
def Same2 (s t : HLD) : Prop :=
  s.N = t.N ∧ s.adj = t.adj ∧ s.values = t.values ∧ s.parent = t.parent ∧
  s.depth = t.depth ∧ s.subtree_size = t.subtree_size ∧ s.heavy_child = t.heavy_child ∧
  s.seg_tree = t.seg_tree

theorem same2_trans {a b c : HLD} (h1 : Same2 a b) (h2 : Same2 b c) : Same2 a c := by
  obtain ⟨e1, e2, e3, e4, e5, e6, e7, e8⟩ := h1
  obtain ⟨f1, f2, f3, f4, f5, f6, f7, f8⟩ := h2
  exact ⟨e1.trans f1, e2.trans f2, e3.trans f3, e4.trans f4, e5.trans f5,
    e6.trans f6, e7.trans f7, e8.trans f8⟩

/-- The light children found in a neighbour list. -/
def lightsOf (N : Nat) (adj : Nat → List Nat) (par : Nat → Int) (u : Nat)
    (l : List Nat) : List Nat :=
  (kidsOf par u l).filter (fun (v : Nat) => !(decide ((v : Int) = heavySpec N adj par u)))

section Dfs2Prep

variable {N root : Nat} {adj : Nat → List Nat} {par : Nat → Int} {dep : Nat → Nat}

theorem heavySpec_cases (h : TreeCert N root adj par dep) {u : Nat} (hu : u < N) :
    (childrenList adj par u = [] ∧ heavySpec N adj par u = -1) ∨
    (∃ c, c ∈ childrenList adj par u ∧ heavySpec N adj par u = (c : Int)) := by
  rcases heavyGo_spec (subSize N par) (childrenList adj par u) (-1) 0 with
    ⟨heq, hall⟩ | ⟨l₁, c, l₂, hl, heq, _, _, _⟩
  · left
    refine ⟨?_, heq⟩
    cases hcl : childrenList adj par u with
    | nil => rfl
    | cons v vs =>
      have hv : v ∈ childrenList adj par u := by rw [hcl]; exact List.mem_cons_self v vs
      have hvN : v < N := ((mem_childrenList h hu).mp hv).1
      have h1 := hall v hv
      have h2 := subSize_pos h hvN
      omega
  · right
    exact ⟨c, by rw [hl]; exact List.mem_append_right l₁ (List.mem_cons_self c l₂), heq⟩

theorem heavySpec_child (h : TreeCert N root adj par dep) {u c : Nat} (hu : u < N)
    (hhc : heavySpec N adj par u = (c : Int)) : c < N ∧ par c = (u : Int) := by
  rcases heavySpec_cases h hu with ⟨_, he⟩ | ⟨c', hc', he⟩
  · rw [he] at hhc; omega
  · rw [he] at hhc
    have : c' = c := by omega
    subst this
    exact (mem_childrenList h hu).mp hc'

theorem map_sum_filter_ne (f : Nat → Nat) :
    ∀ (l : List Nat) (a : Nat), l.Nodup → a ∈ l →
      ((l.map f).sum =
        f a + ((l.filter (fun (v : Nat) => !(decide ((v : Int) = (a : Int))))).map f).sum) := by
  intro l
  induction l with
  | nil => intro a _ ha; simp at ha
  | cons b bs ih =>
    intro a hnd ha
    rcases List.mem_cons.mp ha with rfl | ha'
    · have hnotin : a ∉ bs := (List.nodup_cons.mp hnd).1
      have hfilter : bs.filter (fun (v : Nat) => !(decide ((v : Int) = (a : Int)))) = bs := by
        apply List.filter_eq_self.mpr
        intro v hv
        simp only [Bool.not_eq_eq_eq_not, Bool.not_true, decide_eq_false_iff_not]
        intro he
        have : v = a := by omega
        exact hnotin (this ▸ hv)
      simp only [List.filter_cons, decide_eq_true_eq]
      rw [if_neg (by simp)]
      rw [hfilter]
      simp
    · have hba : ¬ (b : Int) = (a : Int) := by
        intro he
        have : b = a := by omega
        exact (List.nodup_cons.mp hnd).1 (this ▸ ha')
      simp only [List.filter_cons]
      rw [if_pos (by simp [hba])]
      simp only [List.map_cons, List.sum_cons]
      rw [ih a (List.nodup_cons.mp hnd).2 ha']
      omega

theorem children_sum_split (h : TreeCert N root adj par dep) {u hc : Nat} (hu : u < N)
    (hhc : heavySpec N adj par u = (hc : Int)) :
    ((childrenList adj par u).map (subSize N par)).sum =
      subSize N par hc + ((lightsOf N adj par u (adj u)).map (subSize N par)).sum := by
  have hmem : hc ∈ childrenList adj par u := by
    rcases heavySpec_cases h hu with ⟨_, he⟩ | ⟨c', hc', he⟩
    · rw [he] at hhc; omega
    · rw [he] at hhc
      have : c' = hc := by omega
      exact this ▸ hc'
  have hfeq : lightsOf N adj par u (adj u) =
      (childrenList adj par u).filter (fun (v : Nat) => !(decide ((v : Int) = (hc : Int)))) := by
    rw [lightsOf]
    have : kidsOf par u (adj u) = childrenList adj par u := rfl
    rw [this, hhc]
  rw [hfeq]
  exact map_sum_filter_ne (subSize N par) (childrenList adj par u) hc
    (childrenList_nodup h hu) hmem

theorem subSize_heavy_split (h : TreeCert N root adj par dep) {u hc : Nat} (hu : u < N)
    (hhc : heavySpec N adj par u = (hc : Int)) :
    subSize N par u =
      1 + subSize N par hc + ((lightsOf N adj par u (adj u)).map (subSize N par)).sum := by
  rw [subSize_decomp h hu,
    List.sum_toFinset (subSize N par) (childrenList_nodup h hu),
    children_sum_split h hu hhc]
  omega

theorem subSize_leaf (h : TreeCert N root adj par dep) {u : Nat} (hu : u < N)
    (hhc : heavySpec N adj par u = -1) :
    subSize N par u = 1 ∧ lightsOf N adj par u (adj u) = [] := by
  rcases heavySpec_cases h hu with ⟨hcl, _⟩ | ⟨c', _, he⟩
  · constructor
    · rw [subSize_decomp h hu, hcl]
      simp
    · rw [lightsOf]
      have : kidsOf par u (adj u) = childrenList adj par u := rfl
      rw [this, hcl]
      rfl
  · rw [he] at hhc; omega

end Dfs2Prep

/-- Pass-2 postcondition of a call `dfs2_hld(u, h0)`. -/
def Dfs2Post (N : Nat) (adj : Nat → List Nat) (par : Nat → Int) (dep : Nat → Nat)
    (u h0 : Nat) (st st' : HLD) : Prop :=
  Same2 st' st ∧
  st'.cur_pos = st.cur_pos + subSize N par u ∧
  st'.pos u = st.cur_pos ∧
  (∀ x, ¬ (x < N ∧ Anc N par u x) → st'.head x = st.head x ∧ st'.pos x = st.pos x) ∧
  (∀ x, x < N → Anc N par u x →
    st.cur_pos ≤ st'.pos x ∧ st'.pos x < st.cur_pos + subSize N par u) ∧
  (∀ x y, x < N → y < N → Anc N par u x → Anc N par u y → st'.pos x = st'.pos y → x = y) ∧
  st'.head u = h0 ∧
  (∀ x, x < N → Anc N par u x → x ≠ u →
    st'.head x =
      if heavySpec N adj par (par x).toNat = (x : Int) then st'.head (par x).toNat else x) ∧
  (∀ x, x < N → Anc N par u x → heavySpec N adj par x ≠ -1 →
    st'.pos ((heavySpec N adj par x).toNat) = st'.pos x + 1)

/-- Pass-2 postcondition of the light-child fold. -/
def Dfs2StepPost (N : Nat) (adj : Nat → List Nat) (par : Nat → Int) (dep : Nat → Nat)
    (u : Nat) (l : List Nat) (stc st' : HLD) : Prop :=
  Same2 st' stc ∧
  st'.cur_pos = stc.cur_pos + ((lightsOf N adj par u l).map (subSize N par)).sum ∧
  (∀ x, ¬ (x < N ∧ ∃ v ∈ lightsOf N adj par u l, Anc N par v x) →
    st'.head x = stc.head x ∧ st'.pos x = stc.pos x) ∧
  (∀ x, x < N → (∃ v ∈ lightsOf N adj par u l, Anc N par v x) →
    stc.cur_pos ≤ st'.pos x ∧
    st'.pos x < stc.cur_pos + ((lightsOf N adj par u l).map (subSize N par)).sum) ∧
  (∀ x y, x < N → y < N → (∃ v ∈ lightsOf N adj par u l, Anc N par v x) →
    (∃ v ∈ lightsOf N adj par u l, Anc N par v y) → st'.pos x = st'.pos y → x = y) ∧
  (∀ x, x < N → (∃ v ∈ lightsOf N adj par u l, Anc N par v x) →
    st'.head x =
      if heavySpec N adj par (par x).toNat = (x : Int) then st'.head (par x).toNat else x) ∧
  (∀ x, x < N → (∃ v ∈ lightsOf N adj par u l, Anc N par v x) →
    heavySpec N adj par x ≠ -1 →
    st'.pos ((heavySpec N adj par x).toNat) = st'.pos x + 1)

section Dfs2Proof

variable {N root : Nat} {adj : Nat → List Nat} {par : Nat → Int} {dep : Nat → Nat}

theorem mem_lightsOf {u v : Nat} {l : List Nat} :
    v ∈ lightsOf N adj par u l ↔
      v ∈ l ∧ par v = (u : Int) ∧ (v : Int) ≠ heavySpec N adj par u := by
  simp only [lightsOf, kidsOf, List.mem_filter, decide_eq_true_eq,
    Bool.not_eq_eq_eq_not, Bool.not_true, decide_eq_false_iff_not]
  tauto

theorem lights_cons_skip {u v : Nat} {l : List Nat}
    (hsk : (v : Int) = heavySpec N adj par u ∨ ¬ par v = (u : Int)) :
    lightsOf N adj par u (v :: l) = lightsOf N adj par u l := by
  rcases hsk with hsk | hsk
  · by_cases hc : par v = (u : Int)
    · rw [lightsOf, kids_cons_child l hc, lightsOf, List.filter_cons]
      rw [if_neg (by simp [hsk])]
    · rw [lightsOf, kids_cons_nonchild l hc, lightsOf]
  · rw [lightsOf, kids_cons_nonchild l hsk, lightsOf]

theorem lights_cons_light {u v : Nat} {l : List Nat} (hc : par v = (u : Int))
    (hnh : (v : Int) ≠ heavySpec N adj par u) :
    lightsOf N adj par u (v :: l) = v :: lightsOf N adj par u l := by
  rw [lightsOf, kids_cons_child l hc, List.filter_cons]
  rw [if_pos (by simp [hnh])]
  rfl

theorem dfs2Step_spec (h : TreeCert N root adj par dep) {u : Nat} (hu : u < N)
    (rec : HLD → Nat → HLD) :
    ∀ (l : List Nat) (stc : HLD),
      l.Nodup → (∀ v ∈ l, v ∈ adj u) → stc.adj = adj →
      (∀ x, x < N → stc.parent x = par x) →
      (∀ x, x < N → stc.heavy_child x = heavySpec N adj par x) →
      (∀ (s : HLD) v, v ∈ l → par v = (u : Int) → (v : Int) ≠ heavySpec N adj par u →
        s.adj = adj → (∀ x, x < N → s.parent x = par x) →
        (∀ x, x < N → s.heavy_child x = heavySpec N adj par x) →
        Dfs2Post N adj par dep v v s (rec s v)) →
      Dfs2StepPost N adj par dep u l stc (dfs2Step rec u l stc) := by
  intro l
  induction l with
  | nil =>
    intro stc _ _ _ _ _ _
    refine ⟨⟨rfl, rfl, rfl, rfl, rfl, rfl, rfl, rfl⟩, by simp [lightsOf, kidsOf, dfs2Step],
      ?_, ?_, ?_, ?_, ?_⟩
    · intro x _; exact ⟨rfl, rfl⟩
    · intro x _ hx; simp [lightsOf, kidsOf] at hx
    · intro x y _ _ hx; simp [lightsOf, kidsOf] at hx
    · intro x _ hx; simp [lightsOf, kidsOf] at hx
    · intro x _ hx; simp [lightsOf, kidsOf] at hx
  | cons v vs ih =>
    intro stc hnd hmem hadj hpar hhc hrec
    have hvadj : v ∈ adj u := hmem v (List.mem_cons_self v vs)
    have hvN : v < N := tc_adj_lt h u hu v hvadj
    have hvnotin : v ∉ vs := (List.nodup_cons.mp hnd).1
    by_cases hsk : (v : Int) = par u ∨ (v : Int) = heavySpec N adj par u
    · -- skipped neighbour: the parent or the heavy child
      have hred : dfs2Step rec u (v :: vs) stc = dfs2Step rec u vs stc := by
        simp only [dfs2Step]
        rw [if_pos (by rw [hpar u hu, hhc u hu]; exact hsk)]
      have hlskip : lightsOf N adj par u (v :: vs) = lightsOf N adj par u vs := by
        apply lights_cons_skip
        rcases hsk with hsk | hsk
        · exact Or.inr ((skip_iff h hu hvadj).mp hsk)
        · exact Or.inl hsk
      rw [hred]
      have hpost := ih stc hnd.of_cons (fun w hw => hmem w (List.mem_cons_of_mem v hw))
        hadj hpar hhc (fun s w hw => hrec s w (List.mem_cons_of_mem v hw))
      rw [Dfs2StepPost, hlskip] at *
      exact hpost
    · -- light child
      push_neg at hsk
      have hchild : par v = (u : Int) := by
        by_contra hc
        exact hsk.1 ((skip_iff h hu hvadj).mpr hc)
      have hnh : (v : Int) ≠ heavySpec N adj par u := hsk.2
      have hred : dfs2Step rec u (v :: vs) stc = dfs2Step rec u vs (rec stc v) := by
        simp only [dfs2Step]
        rw [if_neg (by rw [hpar u hu, hhc u hu]; push_neg; exact hsk)]
      have hlight : lightsOf N adj par u (v :: vs) = v :: lightsOf N adj par u vs :=
        lights_cons_light hchild hnh
      obtain ⟨hvr, hvt, hvd⟩ := child_facts h hu hvN hchild
      obtain ⟨hs1, hcp1, hpr1, hfr1, hrg1, hinj1, hhd1, hr81, hr91⟩ :=
        hrec stc v (List.mem_cons_self v vs) hchild hnh hadj hpar hhc
      set st1 := rec stc v with hst1
      have hadj1 : st1.adj = adj := hs1.2.1.trans hadj
      have hpar1 : ∀ x, x < N → st1.parent x = par x := by
        intro x hx; rw [hs1.2.2.2.1]; exact hpar x hx
      have hhc1 : ∀ x, x < N → st1.heavy_child x = heavySpec N adj par x := by
        intro x hx; rw [hs1.2.2.2.2.2.2.1]; exact hhc x hx
      obtain ⟨hs2, hcp2, hfr2, hrg2, hinj2, hr82, hr92⟩ :=
        ih st1 hnd.of_cons (fun w hw => hmem w (List.mem_cons_of_mem v hw))
          hadj1 hpar1 hhc1 (fun s w hw => hrec s w (List.mem_cons_of_mem v hw))
      rw [hred]
      set st' := dfs2Step rec u vs st1 with hst'
      -- disjointness of sibling subtrees among the children of u
      have hdisj : ∀ w x, w < N → par w = (u : Int) → w ≠ v → x < N →
          Anc N par w x → Anc N par v x → False := by
        intro w x hwN hwc hwv hxN hwa hva
        have hdw := (child_facts h hu hwN hwc).2.2
        exact sub_disjoint h hwN hvN (by omega) hwv
          (mem_subFinset.mpr ⟨hxN, hwa⟩) (mem_subFinset.mpr ⟨hxN, hva⟩)
      have hvsub_not_later : ∀ x, x < N → Anc N par v x →
          ¬ (x < N ∧ ∃ w ∈ lightsOf N adj par u vs, Anc N par w x) := by
        rintro x hxN hva ⟨_, w, hw, hwa⟩
        obtain ⟨hwvs, hwc, _⟩ := mem_lightsOf.mp hw
        have hwN : w < N := tc_adj_lt h u hu w (hmem w (List.mem_cons_of_mem v hwvs))
        exact hdisj w x hwN hwc (fun he => hvnotin (he ▸ hwvs)) hxN hwa hva
      rw [Dfs2StepPost, hlight]
      have hsum : ((v :: lightsOf N adj par u vs).map (subSize N par)).sum =
          subSize N par v + ((lightsOf N adj par u vs).map (subSize N par)).sum := by
        simp
      refine ⟨same2_trans hs2 hs1, ?_, ?_, ?_, ?_, ?_, ?_⟩
      · rw [hcp2, hcp1, hsum]; omega
      · -- frame
        intro x hnx
        have hnx1 : ¬ (x < N ∧ Anc N par v x) := by
          rintro ⟨hxN, hva⟩
          exact hnx ⟨hxN, v, List.mem_cons_self _ _, hva⟩
        have hnx2 : ¬ (x < N ∧ ∃ w ∈ lightsOf N adj par u vs, Anc N par w x) := by
          rintro ⟨hxN, w, hw, hwa⟩
          exact hnx ⟨hxN, w, List.mem_cons_of_mem v hw, hwa⟩
        obtain ⟨e1, e2⟩ := hfr2 x hnx2
        obtain ⟨f1, f2⟩ := hfr1 x hnx1
        exact ⟨e1.trans f1, e2.trans f2⟩
      · -- range
        intro x hxN hex
        obtain ⟨w, hw, hwa⟩ := hex
        rcases List.mem_cons.mp hw with rfl | hw'
        · obtain ⟨e1, e2⟩ := hfr2 x (hvsub_not_later x hxN hwa)
          rw [e2]
          have := hrg1 x hxN hwa
          rw [hsum]
          omega
        · have := hrg2 x hxN ⟨w, hw', hwa⟩
          rw [hsum, hcp1] at *
          omega
      · -- injectivity
        intro x y hxN hyN hex hey hpxy
        obtain ⟨w1, hw1, hwa1⟩ := hex
        obtain ⟨w2, hw2, hwa2⟩ := hey
        rcases List.mem_cons.mp hw1 with rfl | hw1'
        · rcases List.mem_cons.mp hw2 with rfl | hw2'
          · obtain ⟨_, e2⟩ := hfr2 x (hvsub_not_later x hxN hwa1)
            obtain ⟨_, f2⟩ := hfr2 y (hvsub_not_later y hyN hwa2)
            rw [e2, f2] at hpxy
            exact hinj1 x y hxN hyN hwa1 hwa2 hpxy
          · obtain ⟨_, e2⟩ := hfr2 x (hvsub_not_later x hxN hwa1)
            rw [e2] at hpxy
            have h1 := hrg1 x hxN hwa1
            have h2 := hrg2 y hyN ⟨w2, hw2', hwa2⟩
            rw [hcp1] at h2
            omega
        · rcases List.mem_cons.mp hw2 with rfl | hw2'
          · obtain ⟨_, f2⟩ := hfr2 y (hvsub_not_later y hyN hwa2)
            rw [f2] at hpxy
            have h1 := hrg1 y hyN hwa2
            have h2 := hrg2 x hxN ⟨w1, hw1', hwa1⟩
            rw [hcp1] at h2
            omega
          · exact hinj2 x y hxN hyN ⟨w1, hw1', hwa1⟩ ⟨w2, hw2', hwa2⟩ hpxy
      · -- chain-head rule
        intro x hxN hex
        obtain ⟨w, hw, hwa⟩ := hex
        rcases List.mem_cons.mp hw with rfl | hw'
        · by_cases hxv : x = w
          · subst hxv
            rw [if_neg (by rw [hvt]; exact fun hcon => hnh hcon.symm)]
            obtain ⟨e1, _⟩ := hfr2 x (hvsub_not_later x hxN hwa)
            rw [e1, hhd1]
          · have hxr : x ≠ root := by
              intro he
              subst he
              have := anc_dep_le h hxN hwa
              rw [tc_dep_root h] at this
              omega
            obtain ⟨_, hpxl, _⟩ := tc_par h x hxN hxr
            have hpanc : Anc N par w (par x).toNat := by
              rcases anc_dest h hxN hwa with he | ⟨_, hpa⟩
              · exact absurd he.symm hxv
              · exact hpa
            obtain ⟨e1, _⟩ := hfr2 x (hvsub_not_later x hxN hwa)
            obtain ⟨f1, _⟩ := hfr2 (par x).toNat (hvsub_not_later _ hpxl hpanc)
            rw [e1, f1]
            exact hr81 x hxN hwa hxv
        · have hr := hr82 x hxN ⟨w, hw', hwa⟩
          exact hr
      · -- heavy-position rule
        intro x hxN hex hhx
        obtain ⟨w, hw, hwa⟩ := hex
        rcases List.mem_cons.mp hw with rfl | hw'
        · obtain ⟨hc, hcl⟩ : ∃ c : Nat, heavySpec N adj par x = (c : Int) := by
            refine ⟨(heavySpec N adj par x).toNat, ?_⟩
            rcases heavySpec_cases h hxN with ⟨_, he⟩ | ⟨c', _, he⟩
            · exact absurd he hhx
            · rw [he]; simp
          obtain ⟨hcN, hcc⟩ := heavySpec_child h hxN hcl
          have hcanc : Anc N par w (heavySpec N adj par x).toNat := by
            rw [hcl, Int.toNat_natCast]
            exact anc_trans h hcN hwa (anc_of_child h hxN hcN hcc)
          have hcN' : (heavySpec N adj par x).toNat < N := by
            rw [hcl, Int.toNat_natCast]; exact hcN
          obtain ⟨_, e2⟩ := hfr2 x (hvsub_not_later x hxN hwa)
          obtain ⟨_, f2⟩ := hfr2 _ (hvsub_not_later _ hcN' hcanc)
          rw [e2, f2]
          exact hr91 x hxN hwa hhx
        · exact hr92 x hxN ⟨w, hw', hwa⟩ hhx

end Dfs2Proof

section Dfs2Main

variable {N root : Nat} {adj : Nat → List Nat} {par : Nat → Int} {dep : Nat → Nat}

theorem dfs2_spec (h : TreeCert N root adj par dep) :
    ∀ fuel u h0 (st : HLD), u < N → N ≤ fuel + dep u → st.adj = adj →
      (∀ x, x < N → st.parent x = par x) →
      (∀ x, x < N → st.heavy_child x = heavySpec N adj par x) →
      Dfs2Post N adj par dep u h0 st (HLD.dfs2_hld fuel st u h0) := by
  intro fuel
  induction fuel with
  | zero =>
    intro u h0 st hu hf _ _ _
    have := tc_dep_lt h hu
    omega
  | succ fuel ih =>
    intro u h0 st hu hf hadj hpar hhc
    simp only [HLD.dfs2_hld]
    set st1 : HLD := { st with
      head := fupd st.head u h0
      pos := fupd st.pos u st.cur_pos
      cur_pos := st.cur_pos + 1 } with hst1
    have hS : st1.heavy_child u = heavySpec N adj par u := hhc u hu
    have hadj1 : st1.adj = adj := hadj
    have hpar1 : ∀ x, x < N → st1.parent x = par x := hpar
    have hhc1 : ∀ x, x < N → st1.heavy_child x = heavySpec N adj par x := hhc
    have hcur1 : st1.cur_pos = st.cur_pos + 1 := rfl
    have hs10 : Same2 st1 st := ⟨rfl, rfl, rfl, rfl, rfl, rfl, rfl, rfl⟩
    rw [hS]
    have hrecL : ∀ (s : HLD) v, v ∈ adj u → par v = (u : Int) →
        (v : Int) ≠ heavySpec N adj par u →
        s.adj = adj → (∀ x, x < N → s.parent x = par x) →
        (∀ x, x < N → s.heavy_child x = heavySpec N adj par x) →
        Dfs2Post N adj par dep v v s (HLD.dfs2_hld fuel s v v) := by
      intro s v hvadj hvc _ hsadj hspar hshc
      have hvN : v < N := tc_adj_lt h u hu v hvadj
      have hvd := (child_facts h hu hvN hvc).2.2
      exact ih v v s hvN (by omega) hsadj hspar hshc
    by_cases hleaf : heavySpec N adj par u = -1
    · rw [if_neg (by simp [hleaf])]
      obtain ⟨hsz1, hlempty⟩ := subSize_leaf h hu hleaf
      have hsub_single : ∀ x, x < N → Anc N par u x → x = u := by
        intro x hxN hax
        by_contra hxu
        obtain ⟨c, hcN, hcp, _⟩ := anc_child_decomp h hu hxN hax hxu
        have : c ∈ childrenList adj par u := (mem_childrenList h hu).mpr ⟨hcN, hcp⟩
        rcases heavySpec_cases h hu with ⟨hce, _⟩ | ⟨c', _, he⟩
        · rw [hce] at this; simp at this
        · rw [he] at hleaf; omega
      have hadju : st1.adj u = adj u := congrFun hadj1 u
      rw [hadju]
      obtain ⟨hs3, hcp3, hfr3, _, _, _, _⟩ :=
        dfs2Step_spec h hu _ (adj u) st1 (tc_nodup h u hu) (fun w hw => hw) hadj1
          hpar1 hhc1 hrecL
      set st3 := dfs2Step (fun s v => HLD.dfs2_hld fuel s v v) u (adj u) st1 with hst3
      have hfr3' : ∀ x, st3.head x = st1.head x ∧ st3.pos x = st1.pos x := by
        intro x
        apply hfr3
        rintro ⟨hxN, w, hw, _⟩
        rw [hlempty] at hw
        simp at hw
      refine ⟨same2_trans hs3 hs10, ?_, ?_, ?_, ?_, ?_, ?_, ?_, ?_⟩
      · rw [hcp3, hlempty, hcur1, hsz1]
        simp
      · rw [(hfr3' u).2]
        show fupd st.pos u st.cur_pos u = st.cur_pos
        exact fupd_same _ _ _
      · intro x hnx
        have hxu : x ≠ u := by
          intro he
          exact hnx (by subst he; exact ⟨hu, anc_self x⟩)
        obtain ⟨e1, e2⟩ := hfr3' x
        refine ⟨e1.trans ?_, e2.trans ?_⟩
        · exact fupd_ne _ _ _ _ hxu
        · exact fupd_ne _ _ _ _ hxu
      · intro x hxN hax
        have hxu := hsub_single x hxN hax
        subst hxu
        rw [(hfr3' x).2]
        have : st1.pos x = st.cur_pos := fupd_same _ _ _
        rw [this, hsz1]
        omega
      · intro x y hxN hyN hax hay _
        rw [hsub_single x hxN hax, hsub_single y hyN hay]
      · rw [(hfr3' u).1]
        exact fupd_same _ _ _
      · intro x hxN hax hxu
        exact absurd (hsub_single x hxN hax) hxu
      · intro x hxN hax hhx
        have := hsub_single x hxN hax
        subst this
        exact absurd hleaf hhx
    · rw [if_pos hleaf]
      obtain ⟨c, hcl⟩ : ∃ c : Nat, heavySpec N adj par u = (c : Int) := by
        refine ⟨(heavySpec N adj par u).toNat, ?_⟩
        rcases heavySpec_cases h hu with ⟨_, he⟩ | ⟨c', _, he⟩
        · exact absurd he hleaf
        · rw [he]; simp
      obtain ⟨hcN, hcc⟩ := heavySpec_child h hu hcl
      obtain ⟨hcr, hct, hcd⟩ := child_facts h hu hcN hcc
      have ht : (heavySpec N adj par u).toNat = c := by
        rw [hcl]; exact Int.toNat_natCast c
      rw [ht]
      obtain ⟨hs2, hcp2, hpr2, hfr2, hrg2, hinj2, hhd2, hr82, hr92⟩ :=
        ih c h0 st1 hcN (by omega) hadj1 hpar1 hhc1
      set st2 := HLD.dfs2_hld fuel st1 c h0 with hst2
      have hadj2 : st2.adj = adj := hs2.2.1.trans hadj1
      have hpar2 : ∀ x, x < N → st2.parent x = par x := by
        intro x hx; rw [hs2.2.2.2.1]; exact hpar1 x hx
      have hhc2 : ∀ x, x < N → st2.heavy_child x = heavySpec N adj par x := by
        intro x hx; rw [hs2.2.2.2.2.2.2.1]; exact hhc1 x hx
      have hadju : st2.adj u = adj u := congrFun hadj2 u
      rw [hadju]
      obtain ⟨hs3, hcp3, hfr3, hrg3, hinj3, hr83, hr93⟩ :=
        dfs2Step_spec h hu _ (adj u) st2 (tc_nodup h u hu) (fun w hw => hw) hadj2
          hpar2 hhc2 hrecL
      set st3 := dfs2Step (fun s v => HLD.dfs2_hld fuel s v v) u (adj u) st2 with hst3
      set Lts := lightsOf N adj par u (adj u) with hLts
      have hsplit := subSize_heavy_split h hu hcl
      rw [← hLts] at hsplit
      -- membership facts for light children
      have hlight_mem : ∀ v ∈ Lts, v < N ∧ par v = (u : Int) ∧ v ≠ c := by
        intro v hv
        obtain ⟨hvadj, hvc, hvnh⟩ := mem_lightsOf.mp hv
        refine ⟨tc_adj_lt h u hu v hvadj, hvc, ?_⟩
        intro he
        subst he
        rw [hcl] at hvnh
        exact hvnh rfl
      -- the three regions of the subtree of u are disjoint
      have hnot_u_c : ¬ (u < N ∧ Anc N par c u) := by
        rintro ⟨_, hanc⟩
        have := anc_dep_le h hu hanc
        omega
      have hnot_u_l : ¬ (u < N ∧ ∃ v ∈ Lts, Anc N par v u) := by
        rintro ⟨_, v, hv, hanc⟩
        obtain ⟨hvN, hvc, _⟩ := hlight_mem v hv
        have := anc_dep_le h hu hanc
        have := (child_facts h hu hvN hvc).2.2
        omega
      have hnot_c_l : ∀ x, x < N → Anc N par c x → ¬ (x < N ∧ ∃ v ∈ Lts, Anc N par v x) := by
        rintro x hxN hcx ⟨_, v, hv, hvx⟩
        obtain ⟨hvN, hvc, hvne⟩ := hlight_mem v hv
        have hdv := (child_facts h hu hvN hvc).2.2
        exact sub_disjoint h hvN hcN (by omega) hvne
          (mem_subFinset.mpr ⟨hxN, hvx⟩) (mem_subFinset.mpr ⟨hxN, hcx⟩)
      -- decomposition of the subtree of u
      have hcases : ∀ x, x < N → Anc N par u x →
          x = u ∨ Anc N par c x ∨ (∃ v ∈ Lts, Anc N par v x) := by
        intro x hxN hax
        by_cases hxu : x = u
        · exact Or.inl hxu
        · obtain ⟨c', hc'N, hc'p, hc'a⟩ := anc_child_decomp h hu hxN hax hxu
          by_cases hc'c : c' = c
          · subst hc'c
            exact Or.inr (Or.inl hc'a)
          · refine Or.inr (Or.inr ⟨c', ?_, hc'a⟩)
            rw [hLts]
            refine mem_lightsOf.mpr ⟨(tc_adj_iff h u hu c' hc'N).mpr (Or.inl hc'p), hc'p, ?_⟩
            rw [hcl]
            intro he
            exact hc'c (by omega)
      -- final values at u and on the heavy subtree
      have hval_u : st3.head u = st1.head u ∧ st3.pos u = st1.pos u := by
        obtain ⟨e1, e2⟩ := hfr3 u hnot_u_l
        obtain ⟨f1, f2⟩ := hfr2 u hnot_u_c
        exact ⟨e1.trans f1, e2.trans f2⟩
      have hval_c : ∀ x, x < N → Anc N par c x →
          st3.head x = st2.head x ∧ st3.pos x = st2.pos x := by
        intro x hxN hcx
        exact hfr3 x (hnot_c_l x hxN hcx)
      have hpos_u : st3.pos u = st.cur_pos := by
        rw [hval_u.2]
        exact fupd_same _ _ _
      have hhead_u : st3.head u = h0 := by
        rw [hval_u.1]
        exact fupd_same _ _ _
      refine ⟨same2_trans hs3 (same2_trans hs2 hs10), ?_, hpos_u, ?_, ?_, ?_, hhead_u, ?_, ?_⟩
      · rw [hcp3, hcp2, hcur1]
        omega
      · -- frame outside the subtree of u
        intro x hnx
        have hxu : x ≠ u := by
          intro he
          exact hnx (by subst he; exact ⟨hu, anc_self x⟩)
        have hxN_or : ¬ (x < N) ∨ x < N := by omega
        have hnc : ¬ (x < N ∧ Anc N par c x) := by
          rintro ⟨hxN, hcx⟩
          exact hnx ⟨hxN, anc_trans h hxN (anc_of_child h hu hcN hcc) hcx⟩
        have hnl : ¬ (x < N ∧ ∃ v ∈ Lts, Anc N par v x) := by
          rintro ⟨hxN, v, hv, hvx⟩
          obtain ⟨hvN, hvc, _⟩ := hlight_mem v hv
          exact hnx ⟨hxN, anc_trans h hxN (anc_of_child h hu hvN hvc) hvx⟩
        obtain ⟨e1, e2⟩ := hfr3 x hnl
        obtain ⟨f1, f2⟩ := hfr2 x hnc
        refine ⟨(e1.trans f1).trans ?_, (e2.trans f2).trans ?_⟩
        · exact fupd_ne _ _ _ _ hxu
        · exact fupd_ne _ _ _ _ hxu
      · -- position range
        intro x hxN hax
        rcases hcases x hxN hax with rfl | hcx | hlx
        · rw [hpos_u]
          have := subSize_pos h hu
          omega
        · rw [(hval_c x hxN hcx).2]
          have := hrg2 x hxN hcx
          rw [hcur1] at this
          omega
        · have := hrg3 x hxN hlx
          rw [hcp2, hcur1] at this
          omega
      · -- injectivity on the subtree of u
        intro x y hxN hyN hax hay hpxy
        rcases hcases x hxN hax with rfl | hcx | hlx
        · rcases hcases y hyN hay with rfl | hcy | hly
          · rfl
          · exfalso
            rw [hpos_u, (hval_c y hyN hcy).2] at hpxy
            have := hrg2 y hyN hcy
            rw [hcur1] at this
            omega
          · exfalso
            rw [hpos_u] at hpxy
            have := hrg3 y hyN hly
            rw [hcp2, hcur1] at this
            omega
        · rcases hcases y hyN hay with rfl | hcy | hly
          · exfalso
            rw [hpos_u, (hval_c x hxN hcx).2] at hpxy
            have := hrg2 x hxN hcx
            rw [hcur1] at this
            omega
          · rw [(hval_c x hxN hcx).2, (hval_c y hyN hcy).2] at hpxy
            exact hinj2 x y hxN hyN hcx hcy hpxy
          · exfalso
            rw [(hval_c x hxN hcx).2] at hpxy
            have h1 := hrg2 x hxN hcx
            have h2 := hrg3 y hyN hly
            rw [hcp2] at h2
            omega
        · rcases hcases y hyN hay with rfl | hcy | hly
          · exfalso
            rw [hpos_u] at hpxy
            have := hrg3 x hxN hlx
            rw [hcp2, hcur1] at this
            omega
          · exfalso
            rw [(hval_c y hyN hcy).2] at hpxy
            have h1 := hrg2 y hyN hcy
            have h2 := hrg3 x hxN hlx
            rw [hcp2] at h2
            omega
          · exact hinj3 x y hxN hyN hlx hly hpxy
      · -- chain-head rule
        intro x hxN hax hxu
        rcases hcases x hxN hax with rfl | hcx | hlx
        · exact absurd rfl hxu
        · by_cases hxc : x = c
          · subst hxc
            rw [hct, if_pos hcl]
            rw [(hval_c x hxN (anc_self x)).1, hhd2, hhead_u]
          · have hxr : x ≠ root := by
              intro he
              subst he
              have := anc_dep_le h hxN hcx
              rw [tc_dep_root h] at this
              omega
            obtain ⟨_, hpxl, _⟩ := tc_par h x hxN hxr
            have hpanc : Anc N par c (par x).toNat := by
              rcases anc_dest h hxN hcx with he | ⟨_, hpa⟩
              · exact absurd he.symm hxc
              · exact hpa
            rw [(hval_c x hxN hcx).1, (hval_c (par x).toNat hpxl hpanc).1]
            exact hr82 x hxN hcx hxc
        · exact hr83 x hxN hlx
      · -- heavy-position rule
        intro x hxN hax hhx
        rcases hcases x hxN hax with rfl | hcx | hlx
        · rw [ht, hpos_u, (hval_c c hcN (anc_self c)).2, hpr2, hcur1]
        · obtain ⟨cx, hcxl⟩ : ∃ cx : Nat, heavySpec N adj par x = (cx : Int) := by
            refine ⟨(heavySpec N adj par x).toNat, ?_⟩
            rcases heavySpec_cases h hxN with ⟨_, he⟩ | ⟨c', _, he⟩
            · exact absurd he hhx
            · rw [he]; simp
          obtain ⟨hcxN, hcxc⟩ := heavySpec_child h hxN hcxl
          have htx : (heavySpec N adj par x).toNat = cx := by
            rw [hcxl]; exact Int.toNat_natCast cx
          have hcxanc : Anc N par c cx :=
            anc_trans h hcxN hcx (anc_of_child h hxN hcxN hcxc)
          rw [htx, (hval_c cx hcxN hcxanc).2, (hval_c x hxN hcx).2]
          have := hr92 x hxN hcx hhx
          rw [htx] at this
          exact this
        · exact hr93 x hxN hlx hhx

end Dfs2Main

/-! ### The post-build invariant -/

/-- Everything `build(root)` guarantees that the query operations rely on. -/
def BuiltFacts (N root : Nat) (adj : Nat → List Nat) (par : Nat → Int) (dep : Nat → Nat)
    (st : HLD) : Prop :=
  st.N = N ∧
  (∀ x, x < N → st.parent x = par x) ∧
  (∀ x, x < N → st.depth x = dep x) ∧
  (∀ x, x < N → st.subtree_size x = subSize N par x) ∧
  (∀ x, x < N → st.heavy_child x = heavySpec N adj par x) ∧
  (∀ x, x < N → st.pos x < N) ∧
  (∀ x y, x < N → y < N → st.pos x = st.pos y → x = y) ∧
  st.head root = root ∧
  (∀ x, x < N → x ≠ root →
    st.head x =
      if heavySpec N adj par (par x).toNat = (x : Int) then st.head (par x).toNat else x) ∧
  (∀ x, x < N → heavySpec N adj par x ≠ -1 →
    st.pos ((heavySpec N adj par x).toNat) = st.pos x + 1) ∧
  (∃ arr : Nat → Int, st.seg_tree.n = N ∧ GoodAt st.seg_tree.tree arr 0 0 (N - 1) ∧
    ∀ x, x < N → arr (st.pos x) = st.values x)

section BuildAssembly

variable {N root : Nat} {adj : Nat → List Nat} {par : Nat → Int} {dep : Nat → Nat}

theorem subSize_root (h : TreeCert N root adj par dep) : subSize N par root = N := by
  have : subFinset N par root = Finset.range N := by
    ext y
    simp only [mem_subFinset, Finset.mem_range]
    exact ⟨fun hy => hy.1, fun hy => ⟨hy, anc_root h hy⟩⟩
  rw [subSize, this, Finset.card_range]

theorem permVals_at (ps : Nat → Nat) (vals : Nat → Int) :
    ∀ n x, x < n → (∀ y z, y < n → z < n → ps y = ps z → y = z) →
      permVals ps vals n (ps x) = vals x := by
  intro n
  induction n with
  | zero => intro x hx _; omega
  | succ n ih =>
    intro x hx hinj
    by_cases hxn : x = n
    · subst hxn
      simp only [permVals]
      exact fupd_same _ _ _
    · have hne : ps x ≠ ps n := by
        intro he
        exact hxn (hinj x n (by omega) (by omega) he)
      simp only [permVals]
      rw [fupd_ne _ _ _ _ hne]
      exact ih x (by omega) (fun y z hy hz => hinj y z (by omega) (by omega))

theorem build_facts (h : TreeCert N root adj par dep) (st0 : HLD)
    (hN : st0.N = N) (hadj : st0.adj = adj) (hcur : st0.cur_pos = 0)
    (hseg : st0.seg_tree.n = N) (hhc0 : ∀ x, x < N → st0.heavy_child x = -1) :
    BuiltFacts N root adj par dep (st0.build root) ∧
      (st0.build root).values = st0.values := by
  have hrlt := tc_root_lt h
  rw [HLD.build]
  rw [hN]
  have hcall1 : HLD.dfs1_size_depth_parent N st0 root (-1) 0 =
      HLD.dfs1_size_depth_parent N st0 root (par root) (dep root) := by
    rw [tc_par_root h, tc_dep_root h]
  rw [hcall1]
  obtain ⟨hs1, hfr1, hdone1⟩ :=
    dfs1_spec h N root st0 hrlt (by omega) hadj
      (fun x hx _ => hhc0 x hx)
  set st1 := HLD.dfs1_size_depth_parent N st0 root (par root) (dep root) with hst1
  have hN1 : st1.N = N := hs1.1.trans hN
  have hadj1 : st1.adj = adj := hs1.2.1.trans hadj
  have hpar1 : ∀ x, x < N → st1.parent x = par x := by
    intro x hx
    exact (hdone1 x hx (anc_root h hx)).1
  have hdep1 : ∀ x, x < N → st1.depth x = dep x := by
    intro x hx
    exact (hdone1 x hx (anc_root h hx)).2.1
  have hss1 : ∀ x, x < N → st1.subtree_size x = subSize N par x := by
    intro x hx
    exact (hdone1 x hx (anc_root h hx)).2.2.1
  have hhc1 : ∀ x, x < N → st1.heavy_child x = heavySpec N adj par x := by
    intro x hx
    exact (hdone1 x hx (anc_root h hx)).2.2.2
  rw [hN1]
  obtain ⟨hs2, hcp2, hpr2, hfr2, hrg2, hinj2, hhd2, hr82, hr92⟩ :=
    dfs2_spec h N root root st1 hrlt (by omega) hadj1 hpar1 hhc1
  set st2 := HLD.dfs2_hld N st1 root root with hst2
  have hN2 : st2.N = N := hs2.1.trans hN1
  have hvals2 : st2.values = st0.values := hs2.2.2.1.trans hs1.2.2.1
  have hpar2 : ∀ x, x < N → st2.parent x = par x := by
    intro x hx; rw [hs2.2.2.2.1]; exact hpar1 x hx
  have hdep2 : ∀ x, x < N → st2.depth x = dep x := by
    intro x hx; rw [hs2.2.2.2.2.1]; exact hdep1 x hx
  have hss2 : ∀ x, x < N → st2.subtree_size x = subSize N par x := by
    intro x hx; rw [hs2.2.2.2.2.2.1]; exact hss1 x hx
  have hhc2 : ∀ x, x < N → st2.heavy_child x = heavySpec N adj par x := by
    intro x hx; rw [hs2.2.2.2.2.2.2.1]; exact hhc1 x hx
  have hseg2 : st2.seg_tree = st0.seg_tree := hs2.2.2.2.2.2.2.2.trans hs1.2.2.2.2.2.2
  have hcur1 : st1.cur_pos = 0 := hs1.2.2.2.2.2.1.trans hcur
  have hposlt : ∀ x, x < N → st2.pos x < N := by
    intro x hx
    have := hrg2 x hx (anc_root h hx)
    rw [hcur1, subSize_root h] at this
    omega
  have hposinj : ∀ x y, x < N → y < N → st2.pos x = st2.pos y → x = y := by
    intro x y hx hy
    exact hinj2 x y hx hy (anc_root h hx) (anc_root h hy)
  have harr : ∀ x, x < N → permVals st2.pos st2.values N (st2.pos x) = st2.values x := by
    intro x hx
    exact permVals_at st2.pos st2.values N x hx (fun y z hy hz => hposinj y z hy hz)
  have hsegn : st2.seg_tree.n = N := by rw [hseg2]; exact hseg
  obtain ⟨hbn, hbg⟩ := segBuild_good st2.seg_tree (permVals st2.pos st2.values st2.N)
    (by rw [hsegn]; omega)
  constructor
  · refine ⟨hN2, hpar2, hdep2, hss2, hhc2, hposlt, hposinj, hhd2, ?_, ?_, ?_⟩
    · intro x hx hxr
      exact hr82 x hx (anc_root h hx) hxr
    · intro x hx hne
      exact hr92 x hx (anc_root h hx) hne
    · refine ⟨permVals st2.pos st2.values st2.N, ?_, ?_, ?_⟩
      · show (st2.seg_tree.build_from_mapped_values (permVals st2.pos st2.values st2.N)).n = N
        rw [hbn, hsegn]
      · show GoodAt (st2.seg_tree.build_from_mapped_values
          (permVals st2.pos st2.values st2.N)).tree (permVals st2.pos st2.values st2.N)
          0 0 (N - 1)
        rw [← hsegn]
        exact hbg
      · intro x hx
        rw [hN2]
        exact harr x hx
  · exact hvals2

theorem update_facts (h : TreeCert N root adj par dep)
    {st : HLD} (hb : BuiltFacts N root adj par dep st) {u : Nat} (hu : u < N)
    (x : Int) :
    BuiltFacts N root adj par dep (st.update_node_value u x) ∧
      (∀ y, y < N → (st.update_node_value u x).values y = fupd st.values u x y) := by
  obtain ⟨hN, hpar, hdep, hss, hhc, hplt, hpinj, hhr, hh8, hh9, arr, hsn, hsg, hsv⟩ := hb
  have hposu : st.pos u < N := hplt u hu
  obtain ⟨hun, hug⟩ := @segUpdate_good st.seg_tree arr
    (by rw [hsn]; omega) (by rw [hsn]; exact hsg) (st.pos u)
    (by rw [hsn]; omega) x
  constructor
  · refine ⟨hN, hpar, hdep, hss, hhc, hplt, hpinj, hhr, hh8, hh9, ?_⟩
    refine ⟨fupd arr (st.pos u) x, ?_, ?_, ?_⟩
    · show (st.seg_tree.update (st.pos u) x).n = N
      rw [hun, hsn]
    · show GoodAt (st.seg_tree.update (st.pos u) x).tree (fupd arr (st.pos u) x) 0 0 (N - 1)
      rw [← hsn]
      exact hug
    · intro y hy
      by_cases hyu : y = u
      · subst hyu
        show fupd arr (st.pos y) x (st.pos y) = fupd st.values y x y
        rw [fupd_same, fupd_same]
      · have hne : st.pos y ≠ st.pos u := by
          intro he
          exact hyu (hpinj y u hy hu he)
        show fupd arr (st.pos u) x (st.pos y) = fupd st.values u x y
        rw [fupd_ne _ _ _ _ hne, fupd_ne _ _ _ _ hyu]
        exact hsv y hy
  · intro y hy
    rfl

end BuildAssembly

/-! ### Heavy chains in a built state -/

section ChainLemmas

variable {N root : Nat} {adj : Nat → List Nat} {par : Nat → Int} {dep : Nat → Nat}
variable {st : HLD}

theorem head_basic (h : TreeCert N root adj par dep)
    (hb : BuiltFacts N root adj par dep st) :
    ∀ x, x < N → st.head x < N ∧ Anc N par (st.head x) x ∧ dep (st.head x) ≤ dep x := by
  obtain ⟨_, _, _, _, _, _, _, hhr, hh8, _, _⟩ := hb
  suffices H : ∀ n x, x < N → dep x ≤ n →
      st.head x < N ∧ Anc N par (st.head x) x ∧ dep (st.head x) ≤ dep x from
    fun x hx => H (dep x) x hx (le_refl _)
  intro n
  induction n with
  | zero =>
    intro x hx hd
    have hxr : x = root := tc_dep_zero h hx (by omega)
    subst hxr
    rw [hhr]
    exact ⟨hx, anc_self x, le_refl _⟩
  | succ n ih =>
    intro x hx hd
    by_cases hxr : x = root
    · subst hxr
      rw [hhr]
      exact ⟨hx, anc_self x, le_refl _⟩
    · obtain ⟨hp0, hpl, hpd⟩ := tc_par h x hx hxr
      rw [hh8 x hx hxr]
      by_cases hcond : heavySpec N adj par (par x).toNat = (x : Int)
      · rw [if_pos hcond]
        obtain ⟨e1, e2, e3⟩ := ih (par x).toNat hpl (by omega)
        exact ⟨e1, anc_intro_par h hx hxr e2, by omega⟩
      · rw [if_neg hcond]
        exact ⟨hx, anc_self x, le_refl _⟩

theorem chain_head_eq (h : TreeCert N root adj par dep)
    (hb : BuiltFacts N root adj par dep st) :
    ∀ x x', x < N → x' < N → Anc N par x' x → dep (st.head x) ≤ dep x' →
      st.head x' = st.head x := by
  have hh8 := hb.2.2.2.2.2.2.2.2.1
  suffices H : ∀ n x x', x < N → dep x ≤ n → x' < N → Anc N par x' x →
      dep (st.head x) ≤ dep x' → st.head x' = st.head x from
    fun x x' hx hx' ha hd => H (dep x) x x' hx (le_refl _) hx' ha hd
  intro n
  induction n with
  | zero =>
    intro x x' hx hd hx' ha hdh
    rcases anc_dest h hx ha with rfl | ⟨hxr, _⟩
    · rfl
    · have := tc_dep_zero h hx (by omega)
      exact absurd this hxr
  | succ n ih =>
    intro x x' hx hd hx' ha hdh
    rcases anc_dest h hx ha with rfl | ⟨hxr, ha'⟩
    · rfl
    · obtain ⟨hp0, hpl, hpd⟩ := tc_par h x hx hxr
      by_cases hcond : heavySpec N adj par (par x).toNat = (x : Int)
      · have hrule : st.head x = st.head (par x).toNat := by
          rw [hh8 x hx hxr, if_pos hcond]
        rw [hrule]
        rw [hrule] at hdh
        exact ih (par x).toNat x' hpl (by omega) hx' ha' hdh
      · have hrule : st.head x = x := by
          rw [hh8 x hx hxr, if_neg hcond]
        rw [hrule] at hdh
        have h1 := anc_dep_le h hx ha
        have : x' = x := anc_eq_of_dep h hx ha (by omega)
        rw [this, hrule]

theorem chain_pos (h : TreeCert N root adj par dep)
    (hb : BuiltFacts N root adj par dep st) :
    ∀ x, x < N → st.pos x = st.pos (st.head x) + (dep x - dep (st.head x)) := by
  have hh8 := hb.2.2.2.2.2.2.2.2.1
  have hh9 := hb.2.2.2.2.2.2.2.2.2.1
  have hhr := hb.2.2.2.2.2.2.2.1
  suffices H : ∀ n x, x < N → dep x ≤ n →
      st.pos x = st.pos (st.head x) + (dep x - dep (st.head x)) from
    fun x hx => H (dep x) x hx (le_refl _)
  intro n
  induction n with
  | zero =>
    intro x hx hd
    have hxr : x = root := tc_dep_zero h hx (by omega)
    subst hxr
    rw [hhr]
    omega
  | succ n ih =>
    intro x hx hd
    by_cases hxr : x = root
    · subst hxr
      rw [hhr]
      omega
    · obtain ⟨hp0, hpl, hpd⟩ := tc_par h x hx hxr
      by_cases hcond : heavySpec N adj par (par x).toNat = (x : Int)
      · have hrule : st.head x = st.head (par x).toNat := by
          rw [hh8 x hx hxr, if_pos hcond]
        have hstep : st.pos x = st.pos (par x).toNat + 1 := by
          have := hh9 (par x).toNat hpl (by rw [hcond]; omega)
          rw [hcond, Int.toNat_natCast] at this
          omega
        have hih := ih (par x).toNat hpl (by omega)
        obtain ⟨_, _, e3⟩ := head_basic h hb (par x).toNat hpl
        rw [hrule, hstep, hih]
        omega
      · have hrule : st.head x = x := by
          rw [hh8 x hx hxr, if_neg hcond]
        rw [hrule]
        omega

theorem chain_node_at (h : TreeCert N root adj par dep)
    (hb : BuiltFacts N root adj par dep st) {x : Nat} (hx : x < N) (k : Nat)
    (h1 : dep (st.head x) ≤ k) (h2 : k ≤ dep x) :
    ∃ y, y < N ∧ Anc N par y x ∧ dep y = k ∧ st.head y = st.head x ∧
      st.pos y = st.pos (st.head x) + (k - dep (st.head x)) := by
  obtain ⟨y, hyN, hya, hyd⟩ := anc_at_dep h hx h2
  have hyh : st.head y = st.head x := chain_head_eq h hb x y hx hyN hya (by omega)
  refine ⟨y, hyN, hya, hyd, hyh, ?_⟩
  have := chain_pos h hb y hyN
  rw [hyh, hyd] at this
  exact this

theorem chain_query (h : TreeCert N root adj par dep)
    (hb : BuiltFacts N root adj par dep st) {x : Nat} (hx : x < N) :
    st.seg_tree.query (st.pos (st.head x)) (st.pos x) =
      ∑ y ∈ (Finset.range N).filter
        (fun y => Anc N par y x ∧ dep (st.head x) ≤ dep y), st.values y := by
  obtain ⟨hhN, hha, hhd⟩ := head_basic h hb x hx
  have hplt := hb.2.2.2.2.2.1
  have hpinj := hb.2.2.2.2.2.2.1
  obtain ⟨arr, hsn, hsg, hsv⟩ := hb.2.2.2.2.2.2.2.2.2.2
  have hcp := chain_pos h hb x hx
  have hle : st.pos (st.head x) ≤ st.pos x := by omega
  have hquery : st.seg_tree.query (st.pos (st.head x)) (st.pos x) =
      ∑ j ∈ Finset.Icc (st.pos (st.head x)) (st.pos x), arr j := by
    apply segQuery_correct (by rw [hsn]; have := tc_root_lt h; omega) ?_ hle ?_
    · rw [hsn]
      exact hsg
    · rw [hsn]
      have := hplt x hx
      omega
  rw [hquery]
  symm
  refine Finset.sum_bij (fun y _ => st.pos y) ?_ ?_ ?_ ?_
  · intro y hy
    simp only [Finset.mem_filter, Finset.mem_range] at hy
    obtain ⟨hyN, hya, hyd⟩ := hy
    have hyh : st.head y = st.head x := chain_head_eq h hb x y hx hyN hya hyd
    have hcy := chain_pos h hb y hyN
    rw [hyh] at hcy
    have hdy := anc_dep_le h hx hya
    rw [Finset.mem_Icc]
    show st.pos (st.head x) ≤ st.pos y ∧ st.pos y ≤ st.pos x
    omega
  · intro y1 hy1 y2 hy2 he
    simp only [Finset.mem_filter, Finset.mem_range] at hy1 hy2
    exact hpinj y1 y2 hy1.1 hy2.1 he
  · intro j hj
    rw [Finset.mem_Icc] at hj
    obtain ⟨y, hyN, hya, hyd, hyh, hyp⟩ :=
      chain_node_at h hb hx (dep (st.head x) + (j - st.pos (st.head x)))
        (by omega) (by omega)
    refine ⟨y, ?_, ?_⟩
    · simp only [Finset.mem_filter, Finset.mem_range]
      exact ⟨hyN, hya, by omega⟩
    · show st.pos y = j
      omega
  · intro y hy
    simp only [Finset.mem_filter, Finset.mem_range] at hy
    exact (hsv y hy.1).symm

end ChainLemmas

/-! ### Paths and the chain-jump loops -/

/-- The nodes of the simple path between `u` and `v`, expressed through their
lowest common ancestor `w`: the ancestors of `u` or of `v` that are weak
descendants of `w`. -/
def pathFinset (N : Nat) (par : Nat → Int) (w u v : Nat) : Finset Nat :=
  (Finset.range N).filter (fun x => (Anc N par x u ∨ Anc N par x v) ∧ Anc N par w x)

section LoopLemmas

variable {N root : Nat} {adj : Nat → List Nat} {par : Nat → Int} {dep : Nat → Nat}
variable {st : HLD}

theorem pathFinset_symm (w u v : Nat) :
    pathFinset N par w u v = pathFinset N par w v u := by
  unfold pathFinset
  apply Finset.filter_congr
  intro x _
  tauto

theorem isLCA_symm {w u v : Nat} (hw : IsLCA N par dep w u v) : IsLCA N par dep w v u :=
  ⟨hw.2.1, hw.1, fun x hx h1 h2 => hw.2.2 x hx h2 h1⟩

theorem head_idem (h : TreeCert N root adj par dep)
    (hb : BuiltFacts N root adj par dep st) {x : Nat} (hx : x < N) :
    st.head (st.head x) = st.head x := by
  obtain ⟨h1, h2, _⟩ := head_basic h hb x hx
  exact chain_head_eq h hb x (st.head x) hx h1 h2 (le_refl _)

/-- Generalised same-chain range query: summing the segment positions from an
ancestor `a` down to `b` along one chain. -/
theorem chain_query_gen (h : TreeCert N root adj par dep)
    (hb : BuiltFacts N root adj par dep st) {a b : Nat} (ha : a < N) (hbN : b < N)
    (hanc : Anc N par a b) (hhead : st.head a = st.head b) :
    st.seg_tree.query (st.pos a) (st.pos b) =
      ∑ y ∈ (Finset.range N).filter
        (fun y => Anc N par y b ∧ dep a ≤ dep y), st.values y := by
  have hplt := hb.2.2.2.2.2.1
  have hpinj := hb.2.2.2.2.2.2.1
  obtain ⟨arr, hsn, hsg, hsv⟩ := hb.2.2.2.2.2.2.2.2.2.2
  obtain ⟨hhN, hha, hhd⟩ := head_basic h hb b hbN
  have hcpb := chain_pos h hb b hbN
  have hcpa := chain_pos h hb a ha
  rw [hhead] at hcpa
  have hdab := anc_dep_le h hbN hanc
  have hdha : dep (st.head b) ≤ dep a := by
    rw [← hhead]
    exact (head_basic h hb a ha).2.2
  have hle : st.pos a ≤ st.pos b := by omega
  have hquery : st.seg_tree.query (st.pos a) (st.pos b) =
      ∑ j ∈ Finset.Icc (st.pos a) (st.pos b), arr j := by
    apply segQuery_correct (by rw [hsn]; omega) ?_ hle ?_
    · rw [hsn]; exact hsg
    · rw [hsn]
      have := hplt b hbN
      omega
  rw [hquery]
  symm
  refine Finset.sum_bij (fun y _ => st.pos y) ?_ ?_ ?_ ?_
  · intro y hy
    simp only [Finset.mem_filter, Finset.mem_range] at hy
    obtain ⟨hyN, hya, hyd⟩ := hy
    have hyh : st.head y = st.head b := chain_head_eq h hb b y hbN hyN hya (by omega)
    have hcy := chain_pos h hb y hyN
    rw [hyh] at hcy
    have hdy := anc_dep_le h hbN hya
    rw [Finset.mem_Icc]
    show st.pos a ≤ st.pos y ∧ st.pos y ≤ st.pos b
    omega
  · intro y1 hy1 y2 hy2 he
    simp only [Finset.mem_filter, Finset.mem_range] at hy1 hy2
    exact hpinj y1 y2 hy1.1 hy2.1 he
  · intro j hj
    rw [Finset.mem_Icc] at hj
    obtain ⟨y, hyN, hya, hyd, hyh, hyp⟩ :=
      chain_node_at h hb hbN (dep (st.head b) + (j - st.pos (st.head b)))
        (by omega) (by omega)
    refine ⟨y, ?_, ?_⟩
    · simp only [Finset.mem_filter, Finset.mem_range]
      exact ⟨hyN, hya, by omega⟩
    · show st.pos y = j
      omega
  · intro y hy
    simp only [Finset.mem_filter, Finset.mem_range] at hy
    exact (hsv y hy.1).symm

/-- If the two current nodes are on different chains and the first head is at
least as deep, the lowest common ancestor is strictly above that head. -/
theorem jump_w_above (h : TreeCert N root adj par dep)
    (hb : BuiltFacts N root adj par dep st) {a b w : Nat} (ha : a < N) (hbN : b < N)
    (hw : IsLCA N par dep w a b) (hne : st.head a ≠ st.head b)
    (hdd : dep (st.head b) ≤ dep (st.head a)) : dep w < dep (st.head a) := by
  by_contra hcon
  push_neg at hcon
  have hwN : w < N := anc_lt h ha hw.1
  have h1 : st.head w = st.head a := chain_head_eq h hb a w ha hwN hw.1 hcon
  have h2 : st.head w = st.head b :=
    chain_head_eq h hb b w hbN hwN hw.2.1 (by omega)
  exact hne (h1 ▸ h2)

/-- Facts about one chain jump of the loops: the head is not the root, the
jump target is a valid node below the LCA, and the LCA is preserved. -/
theorem jump_facts (h : TreeCert N root adj par dep)
    (hb : BuiltFacts N root adj par dep st) {a b w : Nat} (ha : a < N) (hbN : b < N)
    (hw : IsLCA N par dep w a b) (hne : st.head a ≠ st.head b)
    (hdd : dep (st.head b) ≤ dep (st.head a)) :
    st.head a ≠ root ∧ (par (st.head a)).toNat < N ∧
      IsLCA N par dep w ((par (st.head a)).toNat) b ∧
      dep (st.head ((par (st.head a)).toNat)) < dep (st.head a) := by
  have hwN : w < N := anc_lt h ha hw.1
  have hJ1 := jump_w_above h hb ha hbN hw hne hdd
  obtain ⟨hhN, hha, hhd⟩ := head_basic h hb a ha
  have hhr : st.head a ≠ root := by
    intro he
    rw [he, tc_dep_root h] at hJ1
    omega
  obtain ⟨hp0, hpl, hpd⟩ := tc_par h (st.head a) hhN hhr
  have hpanc_a : Anc N par ((par (st.head a)).toNat) a :=
    anc_trans h ha (anc_par_self h hhN hhr) hha
  have hwp : Anc N par w ((par (st.head a)).toNat) := by
    rcases anc_total h ha hw.1 hpanc_a with hc | hc
    · exact hc
    · have hd1 := anc_dep_le h hwN hc
      have : (par (st.head a)).toNat = w :=
        anc_eq_of_dep h hwN hc (by omega)
      rw [this]
      exact anc_self w
  refine ⟨hhr, hpl, ⟨hwp, hw.2.1, ?_⟩, ?_⟩
  · intro x hx h1 h2
    exact hw.2.2 x hx (anc_trans h ha h1 hpanc_a) h2
  · have := (head_basic h hb _ hpl).2.2
    omega

/-- One chain segment splits off the path when jumping. -/
theorem path_split (h : TreeCert N root adj par dep)
    (hb : BuiltFacts N root adj par dep st) {a b w : Nat} (ha : a < N) (hbN : b < N)
    (hw : IsLCA N par dep w a b) (hne : st.head a ≠ st.head b)
    (hdd : dep (st.head b) ≤ dep (st.head a)) :
    (∑ x ∈ pathFinset N par w a b, st.values x) =
      (∑ y ∈ (Finset.range N).filter
        (fun y => Anc N par y a ∧ dep (st.head a) ≤ dep y), st.values y) +
      (∑ x ∈ pathFinset N par w ((par (st.head a)).toNat) b, st.values x) := by
  have hwN : w < N := anc_lt h ha hw.1
  have hJ1 := jump_w_above h hb ha hbN hw hne hdd
  obtain ⟨hhN, hha, hhd⟩ := head_basic h hb a ha
  obtain ⟨hhr, hpl, hw', _⟩ := jump_facts h hb ha hbN hw hne hdd
  obtain ⟨hp0, _, hpd⟩ := tc_par h (st.head a) hhN hhr
  have hpanc_a : Anc N par ((par (st.head a)).toNat) a :=
    anc_trans h ha (anc_par_self h hhN hhr) hha
  have hdisj : Disjoint
      ((Finset.range N).filter (fun y => Anc N par y a ∧ dep (st.head a) ≤ dep y))
      (pathFinset N par w ((par (st.head a)).toNat) b) := by
    rw [Finset.disjoint_left]
    intro x hx1 hx2
    simp only [Finset.mem_filter, Finset.mem_range] at hx1
    simp only [pathFinset, Finset.mem_filter, Finset.mem_range] at hx2
    obtain ⟨hxN, hxa, hxd⟩ := hx1
    obtain ⟨_, hor, hwx⟩ := hx2
    rcases hor with hxp | hxb
    · have := anc_dep_le h hpl hxp
      omega
    · have := hw.2.2 x hxN hxa hxb
      omega
  rw [← Finset.sum_union hdisj]
  congr 1
  ext x
  simp only [pathFinset, Finset.mem_union, Finset.mem_filter, Finset.mem_range]
  constructor
  · rintro ⟨hxN, hor, hwx⟩
    rcases hor with hxa | hxb
    · by_cases hxd : dep (st.head a) ≤ dep x
      · exact Or.inl ⟨hxN, hxa, hxd⟩
      · push_neg at hxd
        have hxp : Anc N par x ((par (st.head a)).toNat) := by
          rcases anc_total h ha hxa hpanc_a with hc | hc
          · exact hc
          · have := anc_dep_le h hxN hc
            have hex : (par (st.head a)).toNat = x :=
              anc_eq_of_dep h hxN hc (by omega)
            rw [← hex]
            exact anc_self _
        exact Or.inr ⟨hxN, Or.inl hxp, hwx⟩
    · exact Or.inr ⟨hxN, Or.inr hxb, hwx⟩
  · rintro (⟨hxN, hxa, hxd⟩ | ⟨hxN, hor, hwx⟩)
    · refine ⟨hxN, Or.inl hxa, ?_⟩
      rcases anc_total h ha hw.1 hxa with hc | hc
      · exact hc
      · have := anc_dep_le h hwN hc
        omega
    · rcases hor with hxp | hxb
      · exact ⟨hxN, Or.inl (anc_trans h ha hxp hpanc_a), hwx⟩
      · exact ⟨hxN, Or.inr hxb, hwx⟩

end LoopLemmas

section LoopMain

variable {N root : Nat} {adj : Nat → List Nat} {par : Nat → Int} {dep : Nat → Nat}
variable {st : HLD}

theorem same_chain_lca (h : TreeCert N root adj par dep)
    (hb : BuiltFacts N root adj par dep st) {a b w : Nat} (ha : a < N) (hbN : b < N)
    (hw : IsLCA N par dep w a b) (hhead : st.head a = st.head b) (hdep : dep a ≤ dep b) :
    w = a ∧ Anc N par a b := by
  have hpinj := hb.2.2.2.2.2.2.1
  obtain ⟨hhN, hhanc, hhd⟩ := head_basic h hb a ha
  obtain ⟨y, hyN, hya, hyd, hyh, hyp⟩ :=
    chain_node_at h hb hbN (dep a) (by rw [← hhead]; exact hhd) (by omega)
  have hcpa := chain_pos h hb a ha
  rw [hhead] at hcpa
  have hay : a = y := by
    apply hpinj a y ha hyN
    omega
  subst hay
  have hwN : w < N := anc_lt h ha hw.1
  have h1 := hw.2.2 a ha (anc_self a) hya
  have h2 := anc_dep_le h ha hw.1
  exact ⟨(anc_eq_of_dep h ha hw.1 (by omega)), hya⟩

theorem path_last (h : TreeCert N root adj par dep) {a b : Nat} (ha : a < N)
    (hbN : b < N) (hanc : Anc N par a b) :
    pathFinset N par a a b =
      (Finset.range N).filter (fun y => Anc N par y b ∧ dep a ≤ dep y) := by
  ext x
  simp only [pathFinset, Finset.mem_filter, Finset.mem_range]
  constructor
  · rintro ⟨hxN, hor, hax⟩
    rcases hor with hxa | hxb
    · have h1 := anc_dep_le h ha hxa
      have h2 := anc_dep_le h hxN hax
      have : x = a := anc_eq_of_dep h ha hxa (by omega)
      subst this
      exact ⟨hxN, hanc, le_refl _⟩
    · exact ⟨hxN, hxb, anc_dep_le h hxN hax⟩
  · rintro ⟨hxN, hxb, hxd⟩
    refine ⟨hxN, Or.inr hxb, ?_⟩
    rcases anc_total h hbN hanc hxb with hc | hc
    · exact hc
    · have := anc_dep_le h ha hc
      have : x = a := anc_eq_of_dep h ha hc (by omega)
      subst this
      exact anc_self x

theorem qpLoop_spec (h : TreeCert N root adj par dep)
    (hb : BuiltFacts N root adj par dep st) :
    ∀ fuel u' v' (res : Int) w, u' < N → v' < N → w < N → IsLCA N par dep w u' v' →
      dep (st.head u') + dep (st.head v') < fuel →
      ∃ u'' v'' res'', HLD.qpLoop fuel st u' v' res = (u'', v'', res'') ∧
        u'' < N ∧ v'' < N ∧ st.head u'' = st.head v'' ∧ IsLCA N par dep w u'' v'' ∧
        res'' + (∑ x ∈ pathFinset N par w u'' v'', st.values x) =
          res + (∑ x ∈ pathFinset N par w u' v', st.values x) := by
  have hdepth := hb.2.2.1
  have hparent := hb.2.1
  intro fuel
  induction fuel with
  | zero =>
    intro u' v' res w _ _ _ _ hf
    omega
  | succ fuel ih =>
    intro u' v' res w hu' hv' hwN hw hf
    by_cases hhead : st.head u' = st.head v'
    · refine ⟨u', v', res, ?_, hu', hv', hhead, hw, rfl⟩
      simp only [HLD.qpLoop, if_pos hhead]
    · have hu'h := (head_basic h hb u' hu').1
      have hv'h := (head_basic h hb v' hv').1
      by_cases hswap : st.depth (st.head u') < st.depth (st.head v')
      · -- swapped: reduce v'
        have hgoal : HLD.qpLoop (fuel+1) st u' v' res =
            HLD.qpLoop fuel st ((st.parent (st.head v')).toNat) u'
              (res + st.seg_tree.query (st.pos (st.head v')) (st.pos v')) := by
          simp only [HLD.qpLoop, if_neg hhead, if_pos hswap]
        rw [hgoal]
        have hdd : dep (st.head u') ≤ dep (st.head v') := by
          rw [hdepth _ hu'h, hdepth _ hv'h] at hswap
          omega
        have hwba : IsLCA N par dep w v' u' := isLCA_symm hw
        have hne' : st.head v' ≠ st.head u' := fun he => hhead he.symm
        obtain ⟨hhr, hpl, hw', hterm⟩ := jump_facts h hb hv' hu' hwba hne' hdd
        have hpe : st.parent (st.head v') = par (st.head v') := hparent _ hv'h
        rw [hpe]
        have hq : st.seg_tree.query (st.pos (st.head v')) (st.pos v') =
            ∑ y ∈ (Finset.range N).filter
              (fun y => Anc N par y v' ∧ dep (st.head v') ≤ dep y), st.values y := by
          exact chain_query_gen h hb hv'h hv' (head_basic h hb v' hv').2.1
            (head_idem h hb hv')
        rw [hq]
        obtain ⟨u'', v'', res'', heq, h1, h2, h3, h4, h5⟩ :=
          ih ((par (st.head v')).toNat) u' _ w hpl hu' hwN hw' (by omega)
        refine ⟨u'', v'', res'', heq, h1, h2, h3, h4, ?_⟩
        have hsplit := path_split h hb hv' hu' hwba hne' hdd
        rw [pathFinset_symm w u' v', hsplit]
        omega
      · -- not swapped: reduce u'
        have hgoal : HLD.qpLoop (fuel+1) st u' v' res =
            HLD.qpLoop fuel st ((st.parent (st.head u')).toNat) v'
              (res + st.seg_tree.query (st.pos (st.head u')) (st.pos u')) := by
          simp only [HLD.qpLoop, if_neg hhead, if_neg hswap]
        rw [hgoal]
        have hdd : dep (st.head v') ≤ dep (st.head u') := by
          rw [hdepth _ hu'h, hdepth _ hv'h] at hswap
          omega
        obtain ⟨hhr, hpl, hw', hterm⟩ := jump_facts h hb hu' hv' hw hhead hdd
        have hpe : st.parent (st.head u') = par (st.head u') := hparent _ hu'h
        rw [hpe]
        have hq : st.seg_tree.query (st.pos (st.head u')) (st.pos u') =
            ∑ y ∈ (Finset.range N).filter
              (fun y => Anc N par y u' ∧ dep (st.head u') ≤ dep y), st.values y := by
          exact chain_query_gen h hb hu'h hu' (head_basic h hb u' hu').2.1
            (head_idem h hb hu')
        rw [hq]
        obtain ⟨u'', v'', res'', heq, h1, h2, h3, h4, h5⟩ :=
          ih ((par (st.head u')).toNat) v' _ w hpl hv' hwN hw' (by omega)
        refine ⟨u'', v'', res'', heq, h1, h2, h3, h4, ?_⟩
        have hsplit := path_split h hb hu' hv' hw hhead hdd
        rw [hsplit]
        omega

theorem query_path_correct (h : TreeCert N root adj par dep)
    (hb : BuiltFacts N root adj par dep st) {u v w : Nat} (hu : u < N) (hv : v < N)
    (hw : IsLCA N par dep w u v) :
    st.query_path u v = ∑ x ∈ pathFinset N par w u v, st.values x := by
  have hdepth := hb.2.2.1
  have hwN : w < N := anc_lt h hu hw.1
  have hNst : st.N = N := hb.1
  have hfuel : dep (st.head u) + dep (st.head v) < 2 * st.N + 1 := by
    have h1 := tc_dep_lt h (head_basic h hb u hu).1
    have h2 := tc_dep_lt h (head_basic h hb v hv).1
    omega
  obtain ⟨u'', v'', res'', heq, h1, h2, h3, h4, h5⟩ :=
    qpLoop_spec h hb (2 * st.N + 1) u v 0 w hu hv hwN hw hfuel
  simp only [HLD.query_path]
  rw [heq]
  by_cases hfin : st.depth u'' > st.depth v''
  · rw [if_pos hfin]
    have hdd : dep v'' ≤ dep u'' := by
      rw [hdepth _ h1, hdepth _ h2] at hfin
      omega
    obtain ⟨hwa, hanc⟩ := same_chain_lca h hb h2 h1 (isLCA_symm h4) h3.symm hdd
    show res'' + st.seg_tree.query (st.pos v'') (st.pos u'') = _
    have hq := chain_query_gen h hb h2 h1 hanc h3.symm
    have hpl := path_last h h2 h1 hanc
    have hset : pathFinset N par w v'' u'' =
        (Finset.range N).filter (fun y => Anc N par y u'' ∧ dep v'' ≤ dep y) := by
      rw [hwa]
      exact hpl
    rw [hq, ← hset]
    rw [pathFinset_symm w u'' v''] at h5
    omega
  · rw [if_neg hfin]
    have hdd : dep u'' ≤ dep v'' := by
      rw [hdepth _ h1, hdepth _ h2] at hfin
      omega
    obtain ⟨hwa, hanc⟩ := same_chain_lca h hb h1 h2 h4 h3 hdd
    show res'' + st.seg_tree.query (st.pos u'') (st.pos v'') = _
    have hq := chain_query_gen h hb h1 h2 hanc h3
    have hpl := path_last h h1 h2 hanc
    have hset : pathFinset N par w u'' v'' =
        (Finset.range N).filter (fun y => Anc N par y v'' ∧ dep u'' ≤ dep y) := by
      rw [hwa]
      exact hpl
    rw [hq, ← hset]
    omega

theorem lcaLoop_spec (h : TreeCert N root adj par dep)
    (hb : BuiltFacts N root adj par dep st) :
    ∀ fuel u' v' w, u' < N → v' < N → w < N → IsLCA N par dep w u' v' →
      dep (st.head u') + dep (st.head v') < fuel →
      ∃ u'' v'', HLD.lcaLoop fuel st u' v' = (u'', v'') ∧
        u'' < N ∧ v'' < N ∧ st.head u'' = st.head v'' ∧ IsLCA N par dep w u'' v'' := by
  have hdepth := hb.2.2.1
  have hparent := hb.2.1
  intro fuel
  induction fuel with
  | zero =>
    intro u' v' w _ _ _ _ hf
    omega
  | succ fuel ih =>
    intro u' v' w hu' hv' hwN hw hf
    by_cases hhead : st.head u' = st.head v'
    · refine ⟨u', v', ?_, hu', hv', hhead, hw⟩
      simp only [HLD.lcaLoop, if_pos hhead]
    · have hu'h := (head_basic h hb u' hu').1
      have hv'h := (head_basic h hb v' hv').1
      by_cases hswap : st.depth (st.head u') < st.depth (st.head v')
      · have hgoal : HLD.lcaLoop (fuel+1) st u' v' =
            HLD.lcaLoop fuel st ((st.parent (st.head v')).toNat) u' := by
          simp only [HLD.lcaLoop, if_neg hhead, if_pos hswap]
        rw [hgoal]
        have hdd : dep (st.head u') ≤ dep (st.head v') := by
          rw [hdepth _ hu'h, hdepth _ hv'h] at hswap
          omega
        have hwba : IsLCA N par dep w v' u' := isLCA_symm hw
        have hne' : st.head v' ≠ st.head u' := fun he => hhead he.symm
        obtain ⟨hhr, hpl, hw', hterm⟩ := jump_facts h hb hv' hu' hwba hne' hdd
        have hpe : st.parent (st.head v') = par (st.head v') := hparent _ hv'h
        rw [hpe]
        exact ih ((par (st.head v')).toNat) u' w hpl hu' hwN hw' (by omega)
      · have hgoal : HLD.lcaLoop (fuel+1) st u' v' =
            HLD.lcaLoop fuel st ((st.parent (st.head u')).toNat) v' := by
          simp only [HLD.lcaLoop, if_neg hhead, if_neg hswap]
        rw [hgoal]
        have hdd : dep (st.head v') ≤ dep (st.head u') := by
          rw [hdepth _ hu'h, hdepth _ hv'h] at hswap
          omega
        obtain ⟨hhr, hpl, hw', hterm⟩ := jump_facts h hb hu' hv' hw hhead hdd
        have hpe : st.parent (st.head u') = par (st.head u') := hparent _ hu'h
        rw [hpe]
        exact ih ((par (st.head u')).toNat) v' w hpl hv' hwN hw' (by omega)

theorem get_lca_correct (h : TreeCert N root adj par dep)
    (hb : BuiltFacts N root adj par dep st) {u v w : Nat} (hu : u < N) (hv : v < N)
    (hw : IsLCA N par dep w u v) :
    st.get_lca u v = w := by
  have hdepth := hb.2.2.1
  have hwN : w < N := anc_lt h hu hw.1
  have hNst : st.N = N := hb.1
  have hfuel : dep (st.head u) + dep (st.head v) < 2 * st.N + 1 := by
    have h1 := tc_dep_lt h (head_basic h hb u hu).1
    have h2 := tc_dep_lt h (head_basic h hb v hv).1
    omega
  obtain ⟨u'', v'', heq, h1, h2, h3, h4⟩ :=
    lcaLoop_spec h hb (2 * st.N + 1) u v w hu hv hwN hw hfuel
  simp only [HLD.get_lca]
  rw [heq]
  by_cases hfin : st.depth u'' < st.depth v''
  · rw [if_pos hfin]
    have hdd : dep u'' ≤ dep v'' := by
      rw [hdepth _ h1, hdepth _ h2] at hfin
      omega
    obtain ⟨hwa, _⟩ := same_chain_lca h hb h1 h2 h4 h3 hdd
    show u'' = w
    omega
  · rw [if_neg hfin]
    have hdd : dep v'' ≤ dep u'' := by
      rw [hdepth _ h1, hdepth _ h2] at hfin
      omega
    obtain ⟨hwa, _⟩ := same_chain_lca h hb h2 h1 (isLCA_symm h4) h3.symm hdd
    show v'' = w
    omega

end LoopMain

/-! ### From the public lifecycle to the invariant -/

theorem addEdges_fields : ∀ (es : List (Nat × Nat)) (st : HLD),
    (HLD.addEdges st es).N = st.N ∧
    (HLD.addEdges st es).values = st.values ∧
    (HLD.addEdges st es).parent = st.parent ∧
    (HLD.addEdges st es).depth = st.depth ∧
    (HLD.addEdges st es).subtree_size = st.subtree_size ∧
    (HLD.addEdges st es).heavy_child = st.heavy_child ∧
    (HLD.addEdges st es).head = st.head ∧
    (HLD.addEdges st es).pos = st.pos ∧
    (HLD.addEdges st es).cur_pos = st.cur_pos ∧
    (HLD.addEdges st es).seg_tree = st.seg_tree ∧
    (HLD.addEdges st es).adj = buildAdjGo st.adj es := by
  intro es
  induction es with
  | nil => intro st; exact ⟨rfl, rfl, rfl, rfl, rfl, rfl, rfl, rfl, rfl, rfl, rfl⟩
  | cons e es ih =>
    intro st
    have h1 := ih (st.add_edge e.1 e.2)
    exact h1

theorem builtOf_facts {N root : Nat} {edges : List (Nat × Nat)} {par : Nat → Int}
    {dep : Nat → Nat} (h : TreeCert N root (buildAdj edges) par dep)
    (vals : Nat → Int) :
    BuiltFacts N root (buildAdj edges) par dep (builtOf N vals edges root) ∧
      (builtOf N vals edges root).values = vals := by
  obtain ⟨hN, hvals, _, _, _, hhc, _, _, hcur, hseg, hadj⟩ :=
    addEdges_fields edges (HLD.mkHLD N vals)
  have hfacts := build_facts h (HLD.addEdges (HLD.mkHLD N vals) edges)
    hN hadj hcur (by rw [hseg]; rfl)
    (by intro x _; rw [hhc]; rfl)
  rw [builtOf]
  exact ⟨hfacts.1, hfacts.2.trans hvals⟩

/-! ### The claims -/

/-- Claim C1: for every valid tree of `N` nodes built via `add_edge` calls
followed by `build(root)`, and for every pair of valid node indices `u`, `v`,
`query_path(u, v)` returns the sum of the values of all nodes on the simple
path between `u` and `v`, inclusive of both endpoints — the path being the
nodes that are ancestors of `u` or of `v` and weak descendants of their
lowest common ancestor `w`. -/
theorem claim_C1_query_path_sum (N root : Nat) (vals : Nat → Int)
    (edges : List (Nat × Nat)) (par : Nat → Int) (dep : Nat → Nat)
    (h : TreeCert N root (buildAdj edges) par dep) (u v w : Nat)
    (hu : u < N) (hv : v < N) (hw : IsLCA N par dep w u v) :
    (builtOf N vals edges root).query_path u v =
      ∑ x ∈ pathFinset N par w u v, vals x := by
  obtain ⟨hb, hvals⟩ := builtOf_facts h vals
  rw [query_path_correct h hb hu hv hw, hvals]

/-- Claim C2: for every valid built tree and every pair of valid node
indices `u`, `v`, `get_lca(u, v)` returns the lowest common ancestor of `u`
and `v`: the deepest node that is an ancestor of both. -/
theorem claim_C2_get_lca (N root : Nat) (vals : Nat → Int)
    (edges : List (Nat × Nat)) (par : Nat → Int) (dep : Nat → Nat)
    (h : TreeCert N root (buildAdj edges) par dep) (u v : Nat)
    (hu : u < N) (hv : v < N) :
    IsLCA N par dep ((builtOf N vals edges root).get_lca u v) u v := by
  obtain ⟨hb, _⟩ := builtOf_facts h vals
  obtain ⟨w, hwN, hw⟩ := exists_isLCA h hu hv
  rw [get_lca_correct h hb hu hv hw]
  exact hw

/-- Claim C3: after `build(root)` on a valid tree, every node `u` with a
heavy child `c` satisfies `pos[c] = pos[u] + 1`: heavy children are placed
immediately after their parent in the flattened position array. -/
theorem claim_C3_heavy_contiguous (N root : Nat) (vals : Nat → Int)
    (edges : List (Nat × Nat)) (par : Nat → Int) (dep : Nat → Nat)
    (h : TreeCert N root (buildAdj edges) par dep) (u : Nat) (hu : u < N)
    (hne : (builtOf N vals edges root).heavy_child u ≠ -1) :
    (builtOf N vals edges root).pos
        (((builtOf N vals edges root).heavy_child u).toNat) =
      (builtOf N vals edges root).pos u + 1 := by
  obtain ⟨hb, _⟩ := builtOf_facts h vals
  have hhc := hb.2.2.2.2.1 u hu
  rw [hhc] at hne ⊢
  exact hb.2.2.2.2.2.2.2.2.2.1 u hu hne

/-- Claim C8: for every built tree and every valid node index `u`,
`query_path(u, u)` returns the current value stored at node `u`. -/
theorem claim_C8_singleton (N root : Nat) (vals : Nat → Int)
    (edges : List (Nat × Nat)) (par : Nat → Int) (dep : Nat → Nat)
    (h : TreeCert N root (buildAdj edges) par dep) (u : Nat) (hu : u < N) :
    (builtOf N vals edges root).query_path u u = vals u := by
  obtain ⟨hb, hvals⟩ := builtOf_facts h vals
  have hwu : IsLCA N par dep u u u :=
    ⟨anc_self u, anc_self u, fun x hx hxu _ => anc_dep_le h hu hxu⟩
  rw [query_path_correct h hb hu hu hwu, hvals]
  have hpath : pathFinset N par u u u = {u} := by
    ext x
    simp only [pathFinset, Finset.mem_filter, Finset.mem_range, Finset.mem_singleton]
    constructor
    · rintro ⟨hxN, hor, hux⟩
      have hxu : Anc N par x u := by tauto
      have h1 := anc_dep_le h hu hxu
      have h2 := anc_dep_le h hxN hux
      exact anc_eq_of_dep h hu hxu (by omega)
    · rintro rfl
      exact ⟨hu, Or.inl (anc_self x), anc_self x⟩
  rw [hpath, Finset.sum_singleton]

/-- Claim C9: for every segment tree and every pair of indices with
`left > right`, `query(left, right)` returns the aggregate identity `0`,
regardless of the structure's contents. -/
theorem claim_C9_degenerate_query (stree : SegTree) (l r : Nat) (hlr : l > r) :
    stree.query l r = 0 :=
  segQuery_empty stree hlr

/-- Claim C10: after `build(root)` on a valid `N`-node tree, the `pos` array
is a bijection from the node set onto the position set `{0, …, N-1}`: every
position is below `N`, no two nodes share a position, and no position is
skipped. -/
theorem claim_C10_pos_bijection (N root : Nat) (vals : Nat → Int)
    (edges : List (Nat × Nat)) (par : Nat → Int) (dep : Nat → Nat)
    (h : TreeCert N root (buildAdj edges) par dep) :
    (∀ u, u < N → (builtOf N vals edges root).pos u < N) ∧
    (∀ u v, u < N → v < N →
      (builtOf N vals edges root).pos u = (builtOf N vals edges root).pos v → u = v) ∧
    (∀ j, j < N → ∃ u, u < N ∧ (builtOf N vals edges root).pos u = j) := by
  obtain ⟨hb, _⟩ := builtOf_facts h vals
  have hlt := hb.2.2.2.2.2.1
  have hinj := hb.2.2.2.2.2.2.1
  refine ⟨hlt, hinj, ?_⟩
  intro j hj
  have hsurj := Finset.surj_on_of_inj_on_of_card_le
    (fun (x : Nat) (_ : x ∈ Finset.range N) => (builtOf N vals edges root).pos x)
    (fun a ha => Finset.mem_range.mpr (hlt a (Finset.mem_range.mp ha)))
    (fun a₁ a₂ ha₁ ha₂ he =>
      hinj a₁ a₂ (Finset.mem_range.mp ha₁) (Finset.mem_range.mp ha₂) he)
    (le_refl _)
  obtain ⟨u, humem, he⟩ := hsurj j (Finset.mem_range.mpr hj)
  exact ⟨u, Finset.mem_range.mp humem, he.symm⟩

/-- Claim C7: for every built tree and all valid node indices `u`, `v`,
`query_path` and `get_lca` are symmetric in their arguments. -/
theorem claim_C7_symmetry (N root : Nat) (vals : Nat → Int)
    (edges : List (Nat × Nat)) (par : Nat → Int) (dep : Nat → Nat)
    (h : TreeCert N root (buildAdj edges) par dep) (u v : Nat)
    (hu : u < N) (hv : v < N) :
    (builtOf N vals edges root).query_path u v =
        (builtOf N vals edges root).query_path v u ∧
      (builtOf N vals edges root).get_lca u v =
        (builtOf N vals edges root).get_lca v u := by
  obtain ⟨hb, _⟩ := builtOf_facts h vals
  obtain ⟨w, hwN, hw⟩ := exists_isLCA h hu hv
  constructor
  · rw [query_path_correct h hb hu hv hw,
      query_path_correct h hb hv hu (isLCA_symm hw), pathFinset_symm]
  · rw [get_lca_correct h hb hu hv hw, get_lca_correct h hb hv hu (isLCA_symm hw)]

/-- Claim C6: for every built tree and all valid `u`, `v`, with
`w = get_lca(u, v)`:
`query_path(u, w) + query_path(v, w) - value(w) = query_path(u, v)`. -/
theorem claim_C6_additivity (N root : Nat) (vals : Nat → Int)
    (edges : List (Nat × Nat)) (par : Nat → Int) (dep : Nat → Nat)
    (h : TreeCert N root (buildAdj edges) par dep) (u v : Nat)
    (hu : u < N) (hv : v < N) :
    (builtOf N vals edges root).query_path u ((builtOf N vals edges root).get_lca u v) +
        (builtOf N vals edges root).query_path v ((builtOf N vals edges root).get_lca u v) -
        (builtOf N vals edges root).values ((builtOf N vals edges root).get_lca u v) =
      (builtOf N vals edges root).query_path u v := by
  obtain ⟨hb, hvals⟩ := builtOf_facts h vals
  obtain ⟨w, hwN, hw⟩ := exists_isLCA h hu hv
  rw [get_lca_correct h hb hu hv hw]
  have h1 : IsLCA N par dep w u w := isLCA_self_anc h hu hw.1
  have h2 : IsLCA N par dep w v w := isLCA_self_anc h hv hw.2.1
  rw [query_path_correct h hb hu hwN h1, query_path_correct h hb hv hwN h2,
    query_path_correct h hb hu hv hw]
  have hA : pathFinset N par w u w =
      (Finset.range N).filter (fun x => Anc N par x u ∧ Anc N par w x) := by
    ext x
    simp only [pathFinset, Finset.mem_filter, Finset.mem_range]
    constructor
    · rintro ⟨hxN, hor, hwx⟩
      rcases hor with hxu | hxw
      · exact ⟨hxN, hxu, hwx⟩
      · have hd1 := anc_dep_le h hwN hxw
        have hd2 := anc_dep_le h hxN hwx
        have : x = w := anc_eq_of_dep h hwN hxw (by omega)
        subst this
        exact ⟨hxN, hw.1, hwx⟩
    · rintro ⟨hxN, hxu, hwx⟩
      exact ⟨hxN, Or.inl hxu, hwx⟩
  have hB : pathFinset N par w v w =
      (Finset.range N).filter (fun x => Anc N par x v ∧ Anc N par w x) := by
    ext x
    simp only [pathFinset, Finset.mem_filter, Finset.mem_range]
    constructor
    · rintro ⟨hxN, hor, hwx⟩
      rcases hor with hxv | hxw
      · exact ⟨hxN, hxv, hwx⟩
      · have hd1 := anc_dep_le h hwN hxw
        have hd2 := anc_dep_le h hxN hwx
        have : x = w := anc_eq_of_dep h hwN hxw (by omega)
        subst this
        exact ⟨hxN, hw.2.1, hwx⟩
    · rintro ⟨hxN, hxv, hwx⟩
      exact ⟨hxN, Or.inl hxv, hwx⟩
  have hAB : pathFinset N par w u v =
      ((Finset.range N).filter (fun x => Anc N par x u ∧ Anc N par w x)) ∪
        ((Finset.range N).filter (fun x => Anc N par x v ∧ Anc N par w x)) := by
    ext x
    simp only [pathFinset, Finset.mem_union, Finset.mem_filter, Finset.mem_range]
    tauto
  have hI : ((Finset.range N).filter (fun x => Anc N par x u ∧ Anc N par w x)) ∩
      ((Finset.range N).filter (fun x => Anc N par x v ∧ Anc N par w x)) = {w} := by
    ext x
    simp only [Finset.mem_inter, Finset.mem_filter, Finset.mem_range,
      Finset.mem_singleton]
    constructor
    · rintro ⟨⟨hxN, hxu, hwx⟩, ⟨_, hxv, _⟩⟩
      have hd1 := hw.2.2 x hxN hxu hxv
      have hd2 := anc_dep_le h hxN hwx
      exact (anc_eq_of_dep h hxN hwx (by omega)).symm
    · rintro rfl
      exact ⟨⟨hwN, hw.1, anc_self x⟩, ⟨hwN, hw.2.1, anc_self x⟩⟩
  rw [hA, hB, hAB]
  have hsum :
      (∑ x ∈ ((Finset.range N).filter (fun x => Anc N par x u ∧ Anc N par w x)) ∪
          ((Finset.range N).filter (fun x => Anc N par x v ∧ Anc N par w x)),
        (builtOf N vals edges root).values x) +
      (∑ x ∈ ((Finset.range N).filter (fun x => Anc N par x u ∧ Anc N par w x)) ∩
          ((Finset.range N).filter (fun x => Anc N par x v ∧ Anc N par w x)),
        (builtOf N vals edges root).values x) =
      (∑ x ∈ (Finset.range N).filter (fun x => Anc N par x u ∧ Anc N par w x),
        (builtOf N vals edges root).values x) +
      (∑ x ∈ (Finset.range N).filter (fun x => Anc N par x v ∧ Anc N par w x),
        (builtOf N vals edges root).values x) :=
    Finset.sum_union_inter
  rw [hI, Finset.sum_singleton] at hsum
  omega

/-- Claim C4: after `build(root)`, pass 1 establishes for every node `u`:
`parent[u]` is the DFS-tree parent (`-1` at the root, encoded by the
certified parent map), `depth[u]` is the distance from the root,
`subtree_size[u]` equals one plus the sum of its children's subtree sizes,
and `heavy_child[u]` is the first-encountered child (in adjacency iteration
order) of maximal subtree size, chosen by strict-greater comparison so a tie
keeps the earlier child, and `-1` if `u` is a leaf. -/
theorem claim_C4_pass1 (N root : Nat) (vals : Nat → Int)
    (edges : List (Nat × Nat)) (par : Nat → Int) (dep : Nat → Nat)
    (h : TreeCert N root (buildAdj edges) par dep) (u : Nat) (hu : u < N) :
    (builtOf N vals edges root).parent u = par u ∧
    (builtOf N vals edges root).depth u = dep u ∧
    (builtOf N vals edges root).subtree_size u =
      1 + ∑ c ∈ (childrenList (buildAdj edges) par u).toFinset,
        (builtOf N vals edges root).subtree_size c ∧
    (childrenList (buildAdj edges) par u = [] →
      (builtOf N vals edges root).heavy_child u = -1) ∧
    (childrenList (buildAdj edges) par u ≠ [] →
      ∃ (l₁ : List Nat) (c : Nat) (l₂ : List Nat),
        childrenList (buildAdj edges) par u = l₁ ++ c :: l₂ ∧
        (builtOf N vals edges root).heavy_child u = (c : Int) ∧
        (∀ c' ∈ childrenList (buildAdj edges) par u,
          (builtOf N vals edges root).subtree_size c' ≤
            (builtOf N vals edges root).subtree_size c) ∧
        (∀ c' ∈ l₁,
          (builtOf N vals edges root).subtree_size c' <
            (builtOf N vals edges root).subtree_size c)) := by
  obtain ⟨hb, _⟩ := builtOf_facts h vals
  have hss := hb.2.2.2.1
  have hhc := hb.2.2.2.2.1
  have hcsz : ∀ c', c' ∈ childrenList (buildAdj edges) par u →
      (builtOf N vals edges root).subtree_size c' = subSize N par c' := by
    intro c' hc'
    exact hss c' ((mem_childrenList h hu).mp hc').1
  refine ⟨hb.2.1 u hu, hb.2.2.1 u hu, ?_, ?_, ?_⟩
  · rw [hss u hu, subSize_decomp h hu]
    congr 1
    apply Finset.sum_congr rfl
    intro c hc
    rw [List.mem_toFinset] at hc
    exact (hcsz c hc).symm
  · intro hempty
    rw [hhc u hu, heavySpec, hempty]
    rfl
  · intro hne
    rcases heavyGo_spec (subSize N par) (childrenList (buildAdj edges) par u) (-1) 0 with
      ⟨heq, hall⟩ | ⟨l₁, c, l₂, hl, heq, hgt, h₁, h₂⟩
    · exfalso
      cases hcl : childrenList (buildAdj edges) par u with
      | nil => exact hne hcl
      | cons a as =>
        have ha : a ∈ childrenList (buildAdj edges) par u := by
          rw [hcl]; exact List.mem_cons_self a as
        have h1 := hall a ha
        have h2 := subSize_pos h ((mem_childrenList h hu).mp ha).1
        omega
    · have hcmem : c ∈ childrenList (buildAdj edges) par u := by
        rw [hl]; exact List.mem_append_right l₁ (List.mem_cons_self c l₂)
      refine ⟨l₁, c, l₂, hl, ?_, ?_, ?_⟩
      · rw [hhc u hu, heavySpec, heq]
      · intro c' hc'
        rw [hcsz c' hc', hcsz c hcmem]
        rw [hl] at hc'
        rcases List.mem_append.mp hc' with hc1 | hc2
        · exact le_of_lt (h₁ c' hc1)
        · rcases List.mem_cons.mp hc2 with rfl | hc2'
          · exact le_refl _
          · exact h₂ c' hc2'
      · intro c' hc1
        have hc' : c' ∈ childrenList (buildAdj edges) par u := by
          rw [hl]; exact List.mem_append_left _ hc1
        rw [hcsz c' hc', hcsz c hcmem]
        exact h₁ c' hc1

/-- Claim C5: after `update_node_value(u, x)` on a built tree,
`query_path(u, u)` returns `x`; every path query whose path passes through
`u` reflects `x` as `u`'s contribution with all other node contributions
unchanged; and a path query not passing through `u` is unchanged. -/
theorem claim_C5_update (N root : Nat) (vals : Nat → Int)
    (edges : List (Nat × Nat)) (par : Nat → Int) (dep : Nat → Nat)
    (h : TreeCert N root (buildAdj edges) par dep) (u : Nat) (hu : u < N)
    (xval : Int) :
    ((builtOf N vals edges root).update_node_value u xval).query_path u u = xval ∧
    (∀ v1 v2 w, v1 < N → v2 < N → IsLCA N par dep w v1 v2 →
      ((builtOf N vals edges root).update_node_value u xval).query_path v1 v2 =
        ∑ p ∈ pathFinset N par w v1 v2, (if p = u then xval else vals p)) ∧
    (∀ v1 v2 w, v1 < N → v2 < N → IsLCA N par dep w v1 v2 →
      ((builtOf N vals edges root).update_node_value u xval).query_path v1 v2 =
        (builtOf N vals edges root).query_path v1 v2 +
          (if u ∈ pathFinset N par w v1 v2 then xval - vals u else 0)) := by
  obtain ⟨hb, hvals⟩ := builtOf_facts h vals
  obtain ⟨hb', hvals'⟩ := update_facts h hb hu xval
  have hval_new : ∀ y, y < N →
      ((builtOf N vals edges root).update_node_value u xval).values y =
        (if y = u then xval else vals y) := by
    intro y hy
    rw [hvals' y hy]
    by_cases hyu : y = u
    · subst hyu
      rw [fupd_same]
      simp
    · rw [fupd_ne _ _ _ _ hyu, hvals, if_neg hyu]
  have hmain : ∀ v1 v2 w, v1 < N → v2 < N → IsLCA N par dep w v1 v2 →
      ((builtOf N vals edges root).update_node_value u xval).query_path v1 v2 =
        ∑ p ∈ pathFinset N par w v1 v2, (if p = u then xval else vals p) := by
    intro v1 v2 w hv1 hv2 hw
    rw [query_path_correct h hb' hv1 hv2 hw]
    apply Finset.sum_congr rfl
    intro p hp
    simp only [pathFinset, Finset.mem_filter, Finset.mem_range] at hp
    exact hval_new p hp.1
  refine ⟨?_, hmain, ?_⟩
  · have hwu : IsLCA N par dep u u u :=
      ⟨anc_self u, anc_self u, fun x hx hxu _ => anc_dep_le h hu hxu⟩
    rw [hmain u u u hu hu hwu]
    have hpath : pathFinset N par u u u = {u} := by
      ext x
      simp only [pathFinset, Finset.mem_filter, Finset.mem_range, Finset.mem_singleton]
      constructor
      · rintro ⟨hxN, hor, hux⟩
        have hxu : Anc N par x u := by tauto
        have h1 := anc_dep_le h hu hxu
        have h2 := anc_dep_le h hxN hux
        exact anc_eq_of_dep h hu hxu (by omega)
      · rintro rfl
        exact ⟨hu, Or.inl (anc_self x), anc_self x⟩
    rw [hpath, Finset.sum_singleton, if_pos rfl]
  · intro v1 v2 w hv1 hv2 hw
    rw [hmain v1 v2 w hv1 hv2 hw, query_path_correct h hb hv1 hv2 hw]
    have hold : ∑ p ∈ pathFinset N par w v1 v2, (builtOf N vals edges root).values p =
        ∑ p ∈ pathFinset N par w v1 v2, vals p := by
      apply Finset.sum_congr rfl
      intro p _
      rw [hvals]
    rw [hold]
    by_cases hmem : u ∈ pathFinset N par w v1 v2
    · rw [if_pos hmem]
      have e1 := Finset.add_sum_erase (pathFinset N par w v1 v2)
        (fun p => if p = u then xval else vals p) hmem
      have e2 := Finset.add_sum_erase (pathFinset N par w v1 v2) vals hmem
      have herase : ∑ p ∈ (pathFinset N par w v1 v2).erase u,
          (if p = u then xval else vals p) =
          ∑ p ∈ (pathFinset N par w v1 v2).erase u, vals p := by
        apply Finset.sum_congr rfl
        intro p hp
        rw [if_neg (Finset.mem_erase.mp hp).1]
      simp only [eq_self_iff_true, if_true] at e1
      omega
    · rw [if_neg hmem]
      have : ∑ p ∈ pathFinset N par w v1 v2, (if p = u then xval else vals p) =
          ∑ p ∈ pathFinset N par w v1 v2, vals p := by
        apply Finset.sum_congr rfl
        intro p hp
        rw [if_neg]
        intro he
        exact hmem (he ▸ hp)
      omega

/-! ### Concrete witnesses: the line graph 0-1-2-3 of the test suite -/

/-- Node values of the line-graph test. -/
def vals4 : Nat → Int := fun n => (([10, 20, 30, 40] : List Int)).getD n 0

/-- Edges of the line-graph test. -/
def edges4 : List (Nat × Nat) := [(0, 1), (1, 2), (2, 3)]

/-- Rooted parent map of the line graph rooted at 0. -/
def par4 : Nat → Int := fun n => (([-1, 0, 1, 2] : List Int)).getD n (-1)

/-- Depth map of the line graph rooted at 0. -/
def dep4 : Nat → Nat := fun n => n

theorem claim_C1_witness :
    TreeCert 4 0 (buildAdj edges4) par4 dep4 ∧ (0 : Nat) < 4 ∧ (3 : Nat) < 4 ∧
      IsLCA 4 par4 dep4 0 0 3 ∧
      (builtOf 4 vals4 edges4 0).query_path 0 3 =
        ∑ x ∈ pathFinset 4 par4 0 0 3, vals4 x :=
  ⟨by decide, by decide, by decide, by decide,
    claim_C1_query_path_sum 4 0 vals4 edges4 par4 dep4 (by decide) 0 3 0
      (by decide) (by decide) (by decide)⟩

theorem claim_C2_witness :
    TreeCert 4 0 (buildAdj edges4) par4 dep4 ∧ (2 : Nat) < 4 ∧ (3 : Nat) < 4 ∧
      IsLCA 4 par4 dep4 ((builtOf 4 vals4 edges4 0).get_lca 2 3) 2 3 :=
  ⟨by decide, by decide, by decide,
    claim_C2_get_lca 4 0 vals4 edges4 par4 dep4 (by decide) 2 3 (by decide) (by decide)⟩

theorem claim_C3_witness :
    TreeCert 4 0 (buildAdj edges4) par4 dep4 ∧ (0 : Nat) < 4 ∧
      (builtOf 4 vals4 edges4 0).heavy_child 0 ≠ -1 ∧
      (builtOf 4 vals4 edges4 0).pos (((builtOf 4 vals4 edges4 0).heavy_child 0).toNat) =
        (builtOf 4 vals4 edges4 0).pos 0 + 1 :=
  ⟨by decide, by decide, by decide,
    claim_C3_heavy_contiguous 4 0 vals4 edges4 par4 dep4 (by decide) 0
      (by decide) (by decide)⟩

theorem claim_C4_witness :
    TreeCert 4 0 (buildAdj edges4) par4 dep4 ∧ (1 : Nat) < 4 ∧
      ((builtOf 4 vals4 edges4 0).parent 1 = par4 1 ∧
      (builtOf 4 vals4 edges4 0).depth 1 = dep4 1 ∧
      (builtOf 4 vals4 edges4 0).subtree_size 1 =
        1 + ∑ c ∈ (childrenList (buildAdj edges4) par4 1).toFinset,
          (builtOf 4 vals4 edges4 0).subtree_size c ∧
      (childrenList (buildAdj edges4) par4 1 = [] →
        (builtOf 4 vals4 edges4 0).heavy_child 1 = -1) ∧
      (childrenList (buildAdj edges4) par4 1 ≠ [] →
        ∃ (l₁ : List Nat) (c : Nat) (l₂ : List Nat),
          childrenList (buildAdj edges4) par4 1 = l₁ ++ c :: l₂ ∧
          (builtOf 4 vals4 edges4 0).heavy_child 1 = (c : Int) ∧
          (∀ c' ∈ childrenList (buildAdj edges4) par4 1,
            (builtOf 4 vals4 edges4 0).subtree_size c' ≤
              (builtOf 4 vals4 edges4 0).subtree_size c) ∧
          (∀ c' ∈ l₁,
            (builtOf 4 vals4 edges4 0).subtree_size c' <
              (builtOf 4 vals4 edges4 0).subtree_size c))) :=
  ⟨by decide, by decide,
    claim_C4_pass1 4 0 vals4 edges4 par4 dep4 (by decide) 1 (by decide)⟩

theorem claim_C5_witness :
    TreeCert 4 0 (buildAdj edges4) par4 dep4 ∧ (1 : Nat) < 4 ∧
      (((builtOf 4 vals4 edges4 0).update_node_value 1 200).query_path 1 1 = 200 ∧
      (∀ v1 v2 w, v1 < 4 → v2 < 4 → IsLCA 4 par4 dep4 w v1 v2 →
        ((builtOf 4 vals4 edges4 0).update_node_value 1 200).query_path v1 v2 =
          ∑ p ∈ pathFinset 4 par4 w v1 v2, (if p = 1 then 200 else vals4 p)) ∧
      (∀ v1 v2 w, v1 < 4 → v2 < 4 → IsLCA 4 par4 dep4 w v1 v2 →
        ((builtOf 4 vals4 edges4 0).update_node_value 1 200).query_path v1 v2 =
          (builtOf 4 vals4 edges4 0).query_path v1 v2 +
            (if 1 ∈ pathFinset 4 par4 w v1 v2 then 200 - vals4 1 else 0))) :=
  ⟨by decide, by decide,
    claim_C5_update 4 0 vals4 edges4 par4 dep4 (by decide) 1 (by decide) 200⟩

theorem claim_C6_witness :
    TreeCert 4 0 (buildAdj edges4) par4 dep4 ∧ (1 : Nat) < 4 ∧ (3 : Nat) < 4 ∧
      (builtOf 4 vals4 edges4 0).query_path 1 ((builtOf 4 vals4 edges4 0).get_lca 1 3) +
          (builtOf 4 vals4 edges4 0).query_path 3 ((builtOf 4 vals4 edges4 0).get_lca 1 3) -
          (builtOf 4 vals4 edges4 0).values ((builtOf 4 vals4 edges4 0).get_lca 1 3) =
        (builtOf 4 vals4 edges4 0).query_path 1 3 :=
  ⟨by decide, by decide, by decide,
    claim_C6_additivity 4 0 vals4 edges4 par4 dep4 (by decide) 1 3
      (by decide) (by decide)⟩

theorem claim_C7_witness :
    TreeCert 4 0 (buildAdj edges4) par4 dep4 ∧ (1 : Nat) < 4 ∧ (3 : Nat) < 4 ∧
      ((builtOf 4 vals4 edges4 0).query_path 1 3 =
          (builtOf 4 vals4 edges4 0).query_path 3 1 ∧
        (builtOf 4 vals4 edges4 0).get_lca 1 3 =
          (builtOf 4 vals4 edges4 0).get_lca 3 1) :=
  ⟨by decide, by decide, by decide,
    claim_C7_symmetry 4 0 vals4 edges4 par4 dep4 (by decide) 1 3
      (by decide) (by decide)⟩

theorem claim_C8_witness :
    TreeCert 4 0 (buildAdj edges4) par4 dep4 ∧ (2 : Nat) < 4 ∧
      (builtOf 4 vals4 edges4 0).query_path 2 2 = vals4 2 :=
  ⟨by decide, by decide,
    claim_C8_singleton 4 0 vals4 edges4 par4 dep4 (by decide) 2 (by decide)⟩

theorem claim_C9_witness :
    (3 : Nat) > 1 ∧ (SegTree.mkST 4).query 3 1 = 0 :=
  ⟨by decide, claim_C9_degenerate_query (SegTree.mkST 4) 3 1 (by decide)⟩

theorem claim_C10_witness :
    TreeCert 4 0 (buildAdj edges4) par4 dep4 ∧
      ((∀ u, u < 4 → (builtOf 4 vals4 edges4 0).pos u < 4) ∧
      (∀ u v, u < 4 → v < 4 →
        (builtOf 4 vals4 edges4 0).pos u = (builtOf 4 vals4 edges4 0).pos v → u = v) ∧
      (∀ j, j < 4 → ∃ u, u < 4 ∧ (builtOf 4 vals4 edges4 0).pos u = j)) :=
  ⟨by decide, claim_C10_pos_bijection 4 0 vals4 edges4 par4 dep4 (by decide)⟩
